import Mathlib

/-!
Verification development for the log-rotation subsystem of `firestarter`
(`src/logs.rs`).  The Rust code is shallowly embedded: the file system is an
association list from file names to byte lists, machine integers are `Nat`
(the few places where `u32`/`u64` bounds matter carry explicit `2 ^ 32`
checks), fallible operations (`io::Result`, `unwrap` panics) return `Option`.

Modelling conventions, stated once here:
* Paths: all activity of the rotation code happens inside the parent
  directory of the governed file, and `get_log_names` passes the parent
  through unchanged into every constructed backup path.  Paths are therefore
  modelled as bare file names (`String`); the parent component is elided.
* `String` splitting (`Path::file_stem` / `Path::extension`) is embedded by
  `stemExt` below, following the documented Rust semantics: split at the
  last `.`; no `.`, or a leading `.` as the only `.`, means no extension.
* Time is modelled in integer milliseconds (`Nat`).  `SystemTime` has
  sub-second precision; one-millisecond granularity is enough to express
  every comparison the code performs (`Duration::as_secs`, whole-second
  durations, hour/minute/second extraction).
* The ambient local timezone used by `chrono::Local` is an explicit
  parameter `tzOff` (offset east of UTC in seconds, canonicalised into
  `[0, 86400)`; only the offset modulo one day is ever observable through
  `hour`/`minute`/`second`).
* `chrono`'s `format` (an external crate, not repository code) is abstracted
  by `fmtTimestamp`, an injective rendering of the format string, timezone
  choice and instant; no claim below depends on the exact text it produces.
-/

/-! ### Decimal rendering and parsing (Rust `format!("{}")` and `str::parse::<u32>`) -/

/-- The character for a decimal digit `n < 10`. -/
def digitChar (n : Nat) : Char := Char.ofNat (48 + n)

/-- Worker for `toDigits`: structurally recursive on explicit fuel so that
the kernel can evaluate it (`n < fuel` always suffices, as `toDigits_eq`
below certifies by recovering the natural recurrence). -/
def toDigitsAux : Nat → Nat → List Char → List Char
  | 0, _, acc => acc
  | fuel + 1, n, acc =>
    if n < 10 then digitChar n :: acc
    else toDigitsAux fuel (n / 10) (digitChar (n % 10) :: acc)

/-- Decimal digits of `n`, most significant first (Rust `Display` for unsigned ints). -/
def toDigits (n : Nat) : List Char := toDigitsAux (n + 1) n []

/-- Decimal rendering of a natural number. -/
def natToDec (n : Nat) : String := String.mk (toDigits n)

/-- Value of a decimal digit character, if it is one. -/
def digitVal (ch : Char) : Option Nat :=
  if 48 ≤ ch.toNat ∧ ch.toNat ≤ 57 then some (ch.toNat - 48) else none

/-- Accumulating decimal parse of a character list; fails on any non-digit. -/
def parseDigitsCore (acc : Nat) : List Char → Option Nat
  | [] => some acc
  | ch :: rest =>
    match digitVal ch with
    | none => none
    | some d => parseDigitsCore (acc * 10 + d) rest

/-- Embedding of Rust `str::parse::<u32>`: an optional leading `+`, then one or
more decimal digits, value below `2 ^ 32` (overflow during accumulation implies
the final value is out of range, so a final bound check is equivalent). -/
def parseU32 (s : String) : Option Nat :=
  let cs := if s.data.head? = some '+' then s.data.tail else s.data
  if cs = [] then none
  else
    match parseDigitsCore 0 cs with
    | none => none
    | some n => if n < 2 ^ 32 then some n else none

/-! ### Path stem/extension splitting (Rust `Path::file_stem` / `Path::extension`) -/

/-- Split a character list at its last `'.'` : `some (before, after)`, or
`none` when there is no `'.'` at all. -/
def splitLastDot : List Char → Option (List Char × List Char)
  | [] => none
  | c :: rest =>
    match splitLastDot rest with
    | some (st, ex) => some (c :: st, ex)
    | none => if c = '.' then some ([], rest) else none

/-- Rust `Path` stem/extension semantics for a bare file name: the pair of
`file_stem` and `extension`.  A name with no `.`, or whose only `.` is the
leading character, has no extension and is its own stem. -/
def stemExt (s : String) : String × Option String :=
  match splitLastDot s.data with
  | none => (s, none)
  | some (st, ex) => if st = [] then (s, none) else (String.mk st, some (String.mk ex))

/-! ### File-system model -/

/-- File contents: a list of bytes (`Nat` stands in for `u8`; sizes and
identity of contents are all the claims observe). -/
def FileC : Type := List Nat

instance : DecidableEq FileC := by unfold FileC; infer_instance

instance : Append FileC := by unfold FileC; infer_instance

/-- A directory: an association list from file name to contents. -/
def FS : Type := List (String × FileC)

instance : DecidableEq FS := by unfold FS; infer_instance

/-- Look a file up by name (first binding wins, as in a real directory the
names are unique). -/
def fsGet : FS → String → Option FileC
  | [], _ => none
  | (q, f) :: rest, x => if x = q then some f else fsGet rest x

/-- Delete a file (Rust `fs::remove_file`). -/
def fsRemove : FS → String → FS
  | [], _ => []
  | (a, f) :: rest, q => if a = q then fsRemove rest q else (a, f) :: fsRemove rest q

/-- Create or truncate-and-replace a file with the given contents. -/
def fsInsert (fs : FS) (q : String) (f : FileC) : FS :=
  (q, f) :: fsRemove fs q

/-- Rust `fs::rename` on Unix: fails if the source is absent, silently
replaces an existing destination. -/
def fsRename (fs : FS) (src dst : String) : Option FS :=
  match fsGet fs src with
  | none => none
  | some f => some (fsInsert (fsRemove fs src) dst f)

/-! ### SizeRotatePolicy (`src/logs.rs` lines 33-71)

`rotate(&mut self, buf, p, file)` reads the handle's metadata once; the
recursive call passes the *same* handle, so `fsize` (the governed file's
length at entry) is constant through the recursion, exactly as in the Rust.
The Rust recursion is bounded: every recursive call targets a name whose
numeric suffix is one larger, and a suffix above `max_backup` aborts, so from
any starting point at most `max_backup + 2` frames occur.  The embedding
makes that bound explicit fuel; `sizeRotateTop` supplies `max_backup + 2`,
which the cascade lemmas below show is never exhausted on the states the
claims visit.  `none` models a panic (`unwrap` failure) or an I/O error. -/

def sizeRotateF : Nat → Nat → Nat → Nat → Nat → FS → String → Option (Bool × FS)
  | 0, _, _, _, _, _, _ => none
  | fuel + 1, maxFileSize, maxBackup, bufLen, fsize, fs, p =>
    if maxFileSize > bufLen + fsize then some (false, fs)
    else if (fsGet fs p).isNone then some (false, fs)
    else
      let name := (stemExt p).1
      let ext := ((stemExt p).2).getD ""
      match (stemExt name).2 with
      | some logExt =>
        match parseU32 ext with
        | none => none
        | some logNum =>
          if logNum + 1 > maxBackup then some (false, fs)
          else
            let fileName := (stemExt name).1 ++ "." ++ logExt ++ "." ++ natToDec (logNum + 1)
            if (fsGet fs fileName).isSome then
              match sizeRotateF fuel maxFileSize maxBackup bufLen fsize fs fileName with
              | none => none
              | some (_, fs₁) =>
                match fsRename fs₁ p fileName with
                | none => none
                | some fs₂ => some (true, fs₂)
            else
              match fsRename fs p fileName with
              | none => none
              | some fs₂ => some (true, fs₂)
      | none =>
        let fileName := name ++ "." ++ ext ++ ".1"
        if (fsGet fs fileName).isSome then
          match sizeRotateF fuel maxFileSize maxBackup bufLen fsize fs fileName with
          | none => none
          | some (_, fs₁) =>
            match fsRename fs₁ p fileName with
            | none => none
            | some fs₂ => some (true, fs₂)
        else
          match fsRename fs p fileName with
          | none => none
          | some fs₂ => some (true, fs₂)

/-- `SizeRotatePolicy::rotate` with the fuel instantiated generously. -/
def sizeRotateTop (maxFileSize maxBackup bufLen fsize : Nat) (fs : FS) (p : String) :
    Option (Bool × FS) :=
  sizeRotateF (maxBackup + 2) maxFileSize maxBackup bufLen fsize fs p

/-- The `i`-th numbered backup name the size policy produces for `p`. -/
def bk (p : String) (i : Nat) : String := p ++ "." ++ natToDec i

/-! ### Iterated size-triggered rotation (for the backup-chain claims)

One round of the scenario "the sink is written until the size policy
triggers": `LogFile::write` flushes, calls `rotate` with the pending bytes
and the governed file's current length, reopens on `true`, and appends.  The
round is parameterised by the contents the fresh file ends up with, so that
distinct rounds leave distinguishable contents (`c r` is what the governed
file holds after round `r`). -/

def sizeStep (maxFileSize maxBackup : Nat) (p : String) (newC : FileC) (fs : FS) : FS :=
  let cur := (fsGet fs p).getD []
  match sizeRotateTop maxFileSize maxBackup newC.length cur.length fs p with
  | some (true, fs₁) => fsInsert fs₁ p newC
  | some (false, fs₁) => fsInsert fs₁ p (((fsGet fs₁ p).getD []) ++ newC)
  | none => fs

/-- The directory after `k` size-triggered rotation rounds of the governed
file `p`, starting from a directory holding only `p` with contents `c 0`;
round `r` leaves the live file holding `c r`. -/
def chainState (maxFileSize maxBackup : Nat) (p : String) (c : Nat → FileC) : Nat → FS
  | 0 => fsInsert [] p (c 0)
  | k + 1 => sizeStep maxFileSize maxBackup p (c (k + 1)) (chainState maxFileSize maxBackup p c k)

/-! ### LogFile sink (`src/logs.rs` lines 220-292)

The sink owns at most one handle; a handle always designates the file
currently at `logFile` (every rotation that returns `true` is immediately
followed by the reopen, so the handle never outlives a rename).  `inner` is
therefore modelled by the Boolean `hasHandle`.  `write` mirrors
`Write::write` + `try_rotate`: with no handle the policy is not consulted and
the call returns `Ok(0)` without touching anything; errors (`none` from the
policy) propagate before any byte is written. -/

structure Sink where
  hasHandle : Bool
  logFile : String
deriving DecidableEq

/-- `OpenOptions::new().append(true).create(true).open(p)`: create the file
empty if absent, leave it alone otherwise. -/
def openAt (fs : FS) (p : String) : FS :=
  if (fsGet fs p).isSome then fs else fsInsert fs p []

/-- Append bytes through the live handle. -/
def appendAt (fs : FS) (p : String) (buf : FileC) : FS :=
  fsInsert fs p (((fsGet fs p).getD []) ++ buf)

/-- `LogFile::try_rotate`: only acts when a handle exists; on a reported
rotation the path is reopened (append+create). -/
def tryRotate (s : Sink) (rot : FS → Option (Bool × FS)) (fs : FS) : Option FS :=
  if s.hasHandle then
    match rot fs with
    | none => none
    | some (rotated, fs₁) => some (if rotated then openAt fs₁ s.logFile else fs₁)
  else some fs

/-- `<LogFile as Write>::write`: rotate first (propagating failure), then
write through the handle if one exists, else return `Ok(0)` untouched.  The
sink value itself is returned unchanged: `inner` is only ever replaced
`Some → Some` by a rotation, never dropped to `None` and never created here. -/
def Sink.write (s : Sink) (rot : FS → Option (Bool × FS)) (buf : FileC) (fs : FS) :
    Option (Nat × Sink × FS) :=
  match tryRotate s rot fs with
  | none => none
  | some fs₁ =>
    if s.hasHandle then some (buf.length, s, appendAt fs₁ s.logFile buf)
    else some (0, s, fs₁)

/-- The sink driven by a size policy: the handle's metadata length is the
governed file's current length. -/
def sizeWrite (maxFileSize maxBackup : Nat) (s : Sink) (buf : FileC) (fs : FS) :
    Option (Nat × Sink × FS) :=
  Sink.write s
    (fun fs₀ => sizeRotateTop maxFileSize maxBackup buf.length
      (((fsGet fs₀ s.logFile).getD []).length) fs₀ s.logFile)
    buf fs

/-! ### TimedRotatePolicy (`src/logs.rs` lines 73-218)

Time is `Nat` milliseconds.  The Rust `const MIDNIGHT: u64 = 60*60*24` is in
seconds. -/

/-- The Rust `MIDNIGHT` constant: seconds per day. -/
def midnightSecs : Nat := 60 * 60 * 24

structure TimedRotatePolicy where
  rollover_at : Nat
  duration : Nat
  format : String
  max_backup : Nat
  check_time : Nat
  midnight : Bool
  utc : Bool
deriving DecidableEq

/-- Seconds-of-day of instant `t` (ms) in the timezone with offset `off`
seconds east of UTC; this is what `hour`, `minute`, `second` of the
corresponding `chrono::DateTime` decompose. -/
def localSod (off t : Nat) : Nat := (t / 1000 + off) % midnightSecs

/-- `TimedRotatePolicy::compute_rollover`.  In the midnight case the code
reads hour/minute/second, recombines them to seconds-of-day, and adds
`MIDNIGHT - sod` seconds; otherwise it adds `duration`. -/
def computeRollover (tzOff now : Nat) (utc midnight : Bool) (duration : Nat) : Nat :=
  if midnight then
    let off := if utc then 0 else tzOff
    let sod := localSod off now
    let h := sod / 3600
    let m := sod % 3600 / 60
    let s := sod % 60
    let delta := midnightSecs - ((h * 60 + m) * 60 + s)
    now + delta * 1000
  else now + duration

/-- Worker for `advanceRollover`, structurally recursive on fuel so the
kernel can evaluate it. -/
def advanceRolloverF : Nat → Nat → Nat → Nat → Nat
  | 0, _, _, r => r
  | fuel + 1, now, d, r => if r ≤ now ∧ 0 < d then advanceRolloverF fuel now d (r + d) else r

/-- The `while new_rollover_at <= now { new_rollover_at += duration }` loop of
`timed_rotate`.  The Rust loop diverges when `duration = 0` and the start is
not already past `now`; the `0 < d` guard makes the function total and agrees
with the Rust everywhere the Rust terminates.  When `0 < d` every iteration
raises `r` by at least 1, so `now + 2 - r` fuel always outlasts the loop. -/
def advanceRollover (now d : Nat) (r : Nat) : Nat :=
  advanceRolloverF (now + 2 - r) now d r

/-- Stand-in for `chrono`'s `format` call on the previous-boundary instant:
injective in the instant for a fixed format/timezone; the claims never
inspect the produced text. -/
def fmtTimestamp (format : String) (utc : Bool) (tMs : Nat) : String :=
  format ++ (if utc then "U" else "L") ++ natToDec tMs

/-- `TimedRotatePolicy::get_timed_filename`: `"{name}.{ext}.{suffix}"` with
the suffix rendered from `rollover_at - duration`.  (`SystemTime`
subtraction is modelled by truncating `Nat` subtraction; epoch times in any
realistic run dwarf the duration.) -/
def getTimedFilename (pol : TimedRotatePolicy) (p : String) : String :=
  let name := (stemExt p).1
  let ext := ((stemExt p).2).getD ""
  let delta := pol.rollover_at - pol.duration
  name ++ "." ++ ext ++ "." ++ fmtTimestamp pol.format pol.utc delta

/-- Glob `"{pat}*"` matching for a literal pattern: does `s` extend `pat`?
(`*` matches any — possibly empty — character sequence within the name.) -/
def globMatch : List Char → List Char → Bool
  | [], _ => true
  | _ :: _, [] => false
  | a :: as, b :: bs => a == b && globMatch as bs

/-- Lexicographic comparison of character lists by code point — for UTF-8
encoded names this is exactly the byte-lexicographic `Ord` that Rust uses to
sort single-component `PathBuf`s. -/
def charListLe : List Char → List Char → Bool
  | [], _ => true
  | _ :: _, [] => false
  | a :: as, b :: bs =>
    if a.toNat < b.toNat then true
    else if b.toNat < a.toNat then false
    else charListLe as bs

/-- The path order, as a Boolean on names. -/
def strLe (a b : String) : Bool := charListLe a.data b.data

/-- Sorted insertion of a name into a sorted list of names. -/
def insertSorted (a : String) : List String → List String
  | [] => [a]
  | b :: rest => if strLe a b then a :: b :: rest else b :: insertSorted a rest

/-- Embedding of `Vec::sort` on file names (insertion sort; under the total
antisymmetric order `strLe` every correct sort computes the same list, so the
choice of algorithm is immaterial). -/
def sortStr : List String → List String
  | [] => []
  | a :: rest => insertSorted a (sortStr rest)

/-- `TimedRotatePolicy::remove_old_backup`: glob `"{p}.*"` over the
directory (every name extending `p ++ "."`), sort, and when more than
`max_backup` matches exist delete the `size - max_backup` smallest. -/
def removeOldBackup (fs : FS) (p : String) (maxBackup : Nat) : FS :=
  let ms := (fs.map Prod.fst).filter (fun s => globMatch (p ++ ".").data s.data)
  let sorted := sortStr ms
  if sorted.length > maxBackup then
    let doomed := sorted.take (sorted.length - maxBackup)
    fs.filter (fun e => !(doomed.contains e.1))
  else fs

/-- `TimedRotatePolicy::timed_rotate` (in the ambient timezone `tzOff`). -/
def timedRotate (tzOff : Nat) (pol : TimedRotatePolicy) (now : Nat) (p : String) (fs : FS) :
    Option (Bool × TimedRotatePolicy × FS) :=
  if pol.rollover_at > now then some (false, pol, fs)
  else if (fsGet fs p).isNone then some (false, pol, fs)
  else
    let newPath := getTimedFilename pol p
    let fs₁ := if (fsGet fs newPath).isSome then fsRemove fs newPath else fs
    match fsRename fs₁ p newPath with
    | none => none
    | some fs₂ =>
      let fs₃ := removeOldBackup fs₂ p pol.max_backup
      let r := advanceRollover now pol.duration
        (computeRollover tzOff now pol.utc pol.midnight pol.duration)
      some (true, { pol with rollover_at := r }, fs₃)

/-- The throttle guard of `<TimedRotatePolicy as RotatePolicy>::rotate`:
`check_time.elapsed()` succeeded (the clock did not run backwards) and at
least one whole second elapsed. -/
def realCheck (pol : TimedRotatePolicy) (now : Nat) : Prop :=
  pol.check_time ≤ now ∧ 1 ≤ (now - pol.check_time) / 1000

instance (pol : TimedRotatePolicy) (now : Nat) : Decidable (realCheck pol now) := by
  unfold realCheck; infer_instance

/-- `<TimedRotatePolicy as RotatePolicy>::rotate`: throttled entry to
`timed_rotate`.  The two `SystemTime::now()` reads and the instant inside
`elapsed()` are identified as the single `now` (no time passes between
adjacent statements in the model); an `Err` from `elapsed()` — clock moved
backwards — falls through to `Ok(false)`, which the truncating `Nat`
subtraction in `realCheck` reproduces. -/
def rotateCall (tzOff : Nat) (pol : TimedRotatePolicy) (now : Nat) (p : String) (fs : FS) :
    Option (Bool × TimedRotatePolicy × FS) :=
  if realCheck pol now then timedRotate tzOff { pol with check_time := now } now p fs
  else some (false, pol, fs)

/-- `TimedRotatePolicy::new`.  `seed` is the instant the initial rollover is
computed from (the governed file's mtime when it exists, else the current
instant — the choice happens outside the arithmetic this claims reason
about); `nowT` seeds the throttle clock.  An unknown unit string panics in
the Rust (`none` here). -/
def timedNew (tzOff : Nat) (interval : Nat) (whenU utcS : String) (maxBackup : Nat)
    (seed nowT : Nat) : Option TimedRotatePolicy :=
  let utc := utcS = "U" ∨ utcS = "UTC"
  let spec : Option (Nat × String × Bool) :=
    if whenU = "S" then some (1, "%Y%m%d%H%M%S", false)
    else if whenU = "M" then some (60, "%Y%m%d%H%M", false)
    else if whenU = "H" then some (60 * 60, "%Y%m%d%H", false)
    else if whenU = "D" then some (60 * 60 * 24, "%Y%m%d", false)
    else if whenU = "MIDNIGHT" then some (60 * 60 * 24, "%Y%m%d", true)
    else none
  match spec with
  | none => none
  | some (intervalSecs, fmt, midnight) =>
    let duration :=
      if whenU = "MIDNIGHT" then intervalSecs * 1000
      else intervalSecs * interval * 1000
    let rollover := computeRollover tzOff seed (decide utc) midnight duration
    some { rollover_at := rollover, duration := duration, format := fmt,
           max_backup := maxBackup, check_time := nowT, midnight := midnight,
           utc := decide utc }

/-! ## Lemmas -/

/-! ### File-system lookups -/

theorem fsGet_fsRemove (fs : FS) (q x : String) :
    fsGet (fsRemove fs q) x = if x = q then none else fsGet fs x := by
  induction fs with
  | nil => simp [fsRemove, fsGet]
  | cons e rest ih =>
    obtain ⟨a, f⟩ := e
    by_cases haq : a = q
    · rw [show fsRemove ((a, f) :: rest) q = fsRemove rest q from by simp [fsRemove, haq]]
      by_cases hx : x = q
      · subst hx; simp [ih]
      · have hxa : x ≠ a := by rw [haq]; exact hx
        simp [ih, hx, fsGet, hxa]
    · rw [show fsRemove ((a, f) :: rest) q = (a, f) :: fsRemove rest q from by
        simp [fsRemove, haq]]
      by_cases hxa : x = a
      · subst hxa
        simp [fsGet, haq]
      · simp [fsGet, hxa, ih]

theorem fsGet_fsInsert (fs : FS) (q : String) (f : FileC) (x : String) :
    fsGet (fsInsert fs q f) x = if x = q then some f else fsGet fs x := by
  simp only [fsInsert, fsGet, fsGet_fsRemove]
  by_cases hx : x = q <;> simp [hx]

theorem fsRename_some {fs : FS} {src : String} {f : FileC} (dst : String)
    (h : fsGet fs src = some f) :
    fsRename fs src dst = some (fsInsert (fsRemove fs src) dst f) := by
  simp [fsRename, h]

theorem fsGet_rename {fs : FS} {src : String} {f : FileC} (dst x : String)
    (h : fsGet fs src = some f) :
    fsGet (fsInsert (fsRemove fs src) dst f) x =
      if x = dst then some f else if x = src then none else fsGet fs x := by
  simp [fsGet_fsInsert, fsGet_fsRemove]

/-! ### Decimal digits -/

theorem digit_range : ∀ d, d < 10 → 48 ≤ (digitChar d).toNat ∧ (digitChar d).toNat ≤ 57 := by
  decide

theorem digitVal_digitChar : ∀ d, d < 10 → digitVal (digitChar d) = some d := by decide

theorem toDigitsAux_acc (n : Nat) :
    ∀ fuel acc, n < fuel → toDigitsAux fuel n acc = toDigitsAux (n + 1) n [] ++ acc := by
  induction n using Nat.strong_induction_on with
  | _ n ih =>
    intro fuel acc hf
    cases fuel with
    | zero => exact absurd hf (by omega)
    | succ fuel =>
      by_cases h10 : n < 10
      · simp [toDigitsAux, h10]
      · have hd : n / 10 < n := Nat.div_lt_self (by omega) (by omega)
        rw [show toDigitsAux (fuel + 1) n acc
              = toDigitsAux fuel (n / 10) (digitChar (n % 10) :: acc) from by
            simp [toDigitsAux, h10]]
        rw [show toDigitsAux (n + 1) n []
              = toDigitsAux n (n / 10) [digitChar (n % 10)] from by
            simp [toDigitsAux, h10]]
        rw [ih (n / 10) hd fuel _ (by omega)]
        rw [ih (n / 10) hd n _ (by omega)]
        simp

theorem toDigits_eq (n : Nat) :
    toDigits n = if n < 10 then [digitChar n]
                 else toDigits (n / 10) ++ [digitChar (n % 10)] := by
  unfold toDigits
  by_cases h10 : n < 10
  · simp [toDigitsAux, h10]
  · have hd : n / 10 < n := Nat.div_lt_self (by omega) (by omega)
    rw [show toDigitsAux (n + 1) n []
          = toDigitsAux n (n / 10) [digitChar (n % 10)] from by
        simp [toDigitsAux, h10]]
    rw [toDigitsAux_acc (n / 10) n _ (by omega)]
    simp [h10]

theorem toDigits_ne_nil (n : Nat) : toDigits n ≠ [] := by
  rw [toDigits_eq]; split <;> simp

theorem mem_toDigits (n : Nat) : ∀ c ∈ toDigits n, ∃ d, d < 10 ∧ c = digitChar d := by
  induction n using Nat.strong_induction_on with
  | _ n ih =>
    rw [toDigits_eq]
    split
    · rename_i h
      intro c hc
      simp only [List.mem_singleton] at hc
      exact ⟨n, h, hc⟩
    · rename_i h
      intro c hc
      rcases List.mem_append.mp hc with h1 | h2
      · exact ih (n / 10) (Nat.div_lt_self (by omega) (by omega)) c h1
      · simp only [List.mem_singleton] at h2
        exact ⟨n % 10, Nat.mod_lt _ (by omega), h2⟩

theorem toDigits_digit_range (n : Nat) :
    ∀ c ∈ toDigits n, 48 ≤ c.toNat ∧ c.toNat ≤ 57 := by
  intro c hc
  obtain ⟨d, hd, rfl⟩ := mem_toDigits n c hc
  exact digit_range d hd

theorem dot_not_mem_toDigits (n : Nat) : '.' ∉ toDigits n := by
  intro h
  have := toDigits_digit_range n _ h
  simp at this

theorem parseDigitsCore_append (xs : List Char) :
    ∀ (acc : Nat) (ys : List Char),
      parseDigitsCore acc (xs ++ ys) =
        (parseDigitsCore acc xs).bind (fun a => parseDigitsCore a ys) := by
  induction xs with
  | nil => intro acc ys; simp [parseDigitsCore]
  | cons c rest ih =>
    intro acc ys
    simp only [List.cons_append, parseDigitsCore]
    cases digitVal c with
    | none => simp
    | some d => simp [ih]

theorem parseDigitsCore_toDigits (n : Nat) :
    ∀ acc, parseDigitsCore acc (toDigits n) =
      some (acc * 10 ^ (toDigits n).length + n) := by
  induction n using Nat.strong_induction_on with
  | _ n ih =>
    intro acc
    rw [toDigits_eq]
    split
    · rename_i h
      simp [parseDigitsCore, digitVal_digitChar n h]
    · rename_i h
      rw [parseDigitsCore_append]
      rw [ih (n / 10) (Nat.div_lt_self (by omega) (by omega))]
      have hb : ∀ (a : Nat) (g : Nat → Option Nat), (some a).bind g = g a := fun _ _ => rfl
      rw [hb]
      simp only [parseDigitsCore, digitVal_digitChar (n % 10) (Nat.mod_lt _ (by omega)),
        List.length_append, List.length_singleton]
      have hdm : 10 * (n / 10) + n % 10 = n := Nat.div_add_mod n 10
      congr 1
      calc (acc * 10 ^ (toDigits (n / 10)).length + n / 10) * 10 + n % 10
          = acc * (10 ^ (toDigits (n / 10)).length * 10) + (10 * (n / 10) + n % 10) := by ring
        _ = acc * 10 ^ ((toDigits (n / 10)).length + 1) + n := by rw [hdm, pow_succ]

theorem parseU32_natToDec (n : Nat) (h : n < 2 ^ 32) : parseU32 (natToDec n) = some n := by
  have hdata : (natToDec n).data = toDigits n := rfl
  have hne : toDigits n ≠ [] := toDigits_ne_nil n
  have hhead : (toDigits n).head? ≠ some '+' := by
    cases hcs : toDigits n with
    | nil => exact absurd hcs hne
    | cons c rest =>
      simp only [List.head?_cons, ne_eq, Option.some.injEq]
      intro hplus
      have := toDigits_digit_range n c (hcs ▸ List.mem_cons_self c rest)
      rw [hplus] at this
      simp at this
  unfold parseU32
  rw [hdata]
  simp only [if_neg hhead, if_neg hne]
  rw [parseDigitsCore_toDigits n 0]
  simp
  omega

theorem natToDec_inj {a b : Nat} (ha : a < 2 ^ 32) (hb : b < 2 ^ 32)
    (h : natToDec a = natToDec b) : a = b := by
  have := parseU32_natToDec a ha
  rw [h, parseU32_natToDec b hb] at this
  exact (Option.some.injEq _ _ ▸ this).symm

/-! ### Strings, stems, extensions, backup names -/

theorem string_eq_of_data {s t : String} (h : s.data = t.data) : s = t := by
  cases s; cases t; exact congrArg String.mk h

theorem data_ne_nil {s : String} (h : s ≠ "") : s.data ≠ [] := by
  cases s with
  | mk l => intro hl; exact h (congrArg String.mk hl)

theorem splitLastDot_none {cs : List Char} (h : '.' ∉ cs) : splitLastDot cs = none := by
  induction cs with
  | nil => rfl
  | cons c rest ih =>
    have hc : c ≠ '.' := fun hc => h (hc ▸ List.mem_cons_self c rest)
    have hrest : '.' ∉ rest := fun hr => h (List.mem_cons_of_mem c hr)
    simp [splitLastDot, ih hrest, hc]

theorem splitLastDot_append (qcs : List Char) {dcs : List Char} (hd : '.' ∉ dcs) :
    splitLastDot (qcs ++ '.' :: dcs) = some (qcs, dcs) := by
  induction qcs with
  | nil => simp [splitLastDot, splitLastDot_none hd]
  | cons c rest ih => simp [splitLastDot, ih]

theorem data_append3 (q d : String) :
    (q ++ "." ++ d).data = q.data ++ '.' :: d.data := by
  rw [String.data_append, String.data_append]
  simp

theorem stemExt_app {q d : String} (hq : q ≠ "") (hd : '.' ∉ d.data) :
    stemExt (q ++ "." ++ d) = (q, some d) := by
  unfold stemExt
  rw [data_append3, splitLastDot_append q.data hd]
  simp [data_ne_nil hq]

theorem stemExt_noDot {s : String} (h : '.' ∉ s.data) : stemExt s = (s, none) := by
  unfold stemExt
  rw [splitLastDot_none h]

theorem natToDec_data (i : Nat) : (natToDec i).data = toDigits i := rfl

theorem dot_not_mem_natToDec (i : Nat) : '.' ∉ (natToDec i).data :=
  dot_not_mem_toDigits i

theorem bk_eq_append (p : String) (i : Nat) : bk p i = p ++ "." ++ natToDec i := rfl

theorem stemExt_bk {p : String} (hp : p ≠ "") (i : Nat) :
    stemExt (bk p i) = (p, some (natToDec i)) :=
  stemExt_app hp (dot_not_mem_natToDec i)

theorem bk_data (p : String) (i : Nat) : (bk p i).data = p.data ++ '.' :: toDigits i := by
  rw [bk_eq_append, data_append3, natToDec_data]

theorem bk_ne (p : String) (i : Nat) : bk p i ≠ p := by
  intro h
  have := congrArg (fun s => s.data.length) h
  simp only [bk_data, List.length_append, List.length_cons] at this
  omega

theorem bk_inj {p : String} {i j : Nat} (hi : i < 2 ^ 32) (hj : j < 2 ^ 32)
    (h : bk p i = bk p j) : i = j := by
  have hd := congrArg String.data h
  rw [bk_data, bk_data] at hd
  have := List.append_cancel_left hd
  have hdig : toDigits i = toDigits j := by simpa using this
  exact natToDec_inj hi hj (congrArg String.mk hdig)

/-! ### Branch evaluation of `sizeRotateF` -/

theorem sizeRotateF_noBreach {maxS m bl fz : Nat} {fs : FS} {p : String} (fuel : Nat)
    (h : maxS > bl + fz) :
    sizeRotateF (fuel + 1) maxS m bl fz fs p = some (false, fs) := by
  simp [sizeRotateF, h]

theorem sizeRotateF_noFile {maxS m bl fz : Nat} {fs : FS} {p : String} (fuel : Nat)
    (h1 : ¬ maxS > bl + fz) (h2 : fsGet fs p = none) :
    sizeRotateF (fuel + 1) maxS m bl fz fs p = some (false, fs) := by
  simp [sizeRotateF, h1, h2]

theorem sizeRotateF_num_panic {maxS m bl fz : Nat} {fs : FS} {p : String} {lext : String}
    {f : FileC} (fuel : Nat)
    (h1 : ¬ maxS > bl + fz) (h2 : fsGet fs p = some f)
    (h3 : (stemExt (stemExt p).1).2 = some lext)
    (h5 : parseU32 (((stemExt p).2).getD "") = none) :
    sizeRotateF (fuel + 1) maxS m bl fz fs p = none := by
  simp [sizeRotateF, h1, h2, h3, h5]

theorem sizeRotateF_num_abort {maxS m bl fz : Nat} {fs : FS} {p : String} {lext : String}
    {f : FileC} {nn : Nat} (fuel : Nat)
    (h1 : ¬ maxS > bl + fz) (h2 : fsGet fs p = some f)
    (h3 : (stemExt (stemExt p).1).2 = some lext)
    (h5 : parseU32 (((stemExt p).2).getD "") = some nn)
    (h6 : nn + 1 > m) :
    sizeRotateF (fuel + 1) maxS m bl fz fs p = some (false, fs) := by
  simp [sizeRotateF, h1, h2, h3, h5, h6]

theorem sizeRotateF_num_free {maxS m bl fz : Nat} {fs : FS} {p : String} {lext : String}
    {f : FileC} {nn : Nat} (fuel : Nat)
    (h1 : ¬ maxS > bl + fz) (h2 : fsGet fs p = some f)
    (h3 : (stemExt (stemExt p).1).2 = some lext)
    (h5 : parseU32 (((stemExt p).2).getD "") = some nn)
    (h6 : ¬ nn + 1 > m)
    (h4 : fsGet fs ((stemExt (stemExt p).1).1 ++ "." ++ lext ++ "." ++ natToDec (nn + 1)) = none) :
    sizeRotateF (fuel + 1) maxS m bl fz fs p =
      some (true, fsInsert (fsRemove fs p)
        ((stemExt (stemExt p).1).1 ++ "." ++ lext ++ "." ++ natToDec (nn + 1)) f) := by
  simp [sizeRotateF, h1, h2, h3, h5, h6, h4, fsRename]

theorem sizeRotateF_num_occupied {maxS m bl fz : Nat} {fs : FS} {p : String} {lext : String}
    {f g : FileC} {nn : Nat} (fuel : Nat)
    (h1 : ¬ maxS > bl + fz) (h2 : fsGet fs p = some f)
    (h3 : (stemExt (stemExt p).1).2 = some lext)
    (h5 : parseU32 (((stemExt p).2).getD "") = some nn)
    (h6 : ¬ nn + 1 > m)
    (h4 : fsGet fs ((stemExt (stemExt p).1).1 ++ "." ++ lext ++ "." ++ natToDec (nn + 1)) = some g) :
    sizeRotateF (fuel + 1) maxS m bl fz fs p =
      match sizeRotateF fuel maxS m bl fz fs
          ((stemExt (stemExt p).1).1 ++ "." ++ lext ++ "." ++ natToDec (nn + 1)) with
      | none => none
      | some (_, fs₁) =>
        match fsRename fs₁ p
            ((stemExt (stemExt p).1).1 ++ "." ++ lext ++ "." ++ natToDec (nn + 1)) with
        | none => none
        | some fs₂ => some (true, fs₂) := by
  simp [sizeRotateF, h1, h2, h3, h5, h6, h4]

theorem sizeRotateF_else_free {maxS m bl fz : Nat} {fs : FS} {p : String}
    {f : FileC} (fuel : Nat)
    (h1 : ¬ maxS > bl + fz) (h2 : fsGet fs p = some f)
    (h3 : (stemExt (stemExt p).1).2 = none)
    (h4 : fsGet fs ((stemExt p).1 ++ "." ++ ((stemExt p).2).getD "" ++ ".1") = none) :
    sizeRotateF (fuel + 1) maxS m bl fz fs p =
      some (true, fsInsert (fsRemove fs p)
        ((stemExt p).1 ++ "." ++ ((stemExt p).2).getD "" ++ ".1") f) := by
  simp [sizeRotateF, h1, h2, h3, h4, fsRename]

theorem sizeRotateF_else_occupied {maxS m bl fz : Nat} {fs : FS} {p : String}
    {f g : FileC} (fuel : Nat)
    (h1 : ¬ maxS > bl + fz) (h2 : fsGet fs p = some f)
    (h3 : (stemExt (stemExt p).1).2 = none)
    (h4 : fsGet fs ((stemExt p).1 ++ "." ++ ((stemExt p).2).getD "" ++ ".1") = some g) :
    sizeRotateF (fuel + 1) maxS m bl fz fs p =
      match sizeRotateF fuel maxS m bl fz fs
          ((stemExt p).1 ++ "." ++ ((stemExt p).2).getD "" ++ ".1") with
      | none => none
      | some (_, fs₁) =>
        match fsRename fs₁ p ((stemExt p).1 ++ "." ++ ((stemExt p).2).getD "" ++ ".1") with
        | none => none
        | some fs₂ => some (true, fs₂) := by
  simp [sizeRotateF, h1, h2, h3, h4]

/-! ### The backup-shift cascade of the size policy

`cascadeShift` describes one call of `SizeRotatePolicy::rotate` landing on a
numbered backup `bk p i` of a governed file `p = st.ex` whose chain of
backups currently occupies exactly the slots `i .. j`: when `i = m` the call
aborts untouched; otherwise it shifts the chain one slot up (capped at `m`,
the topmost previous occupant being overwritten when the chain was full) and
reports `true`. -/

theorem fname_eq (st ex : String) (i : Nat) :
    st ++ "." ++ ex ++ "." ++ natToDec i = bk (st ++ "." ++ ex) i := rfl

theorem cascadeShift (st ex : String) (hst : st ≠ "") (hstd : '.' ∉ st.data)
    (hexd : '.' ∉ ex.data) (maxS m bl fz : Nat) (hbr : ¬ maxS > bl + fz)
    (hm32 : m < 2 ^ 32) (v : Nat → FileC) (j : Nat) (hj : j ≤ m) :
    ∀ fuel i fs, 1 ≤ i → i ≤ j → m + 1 - i ≤ fuel →
    (∀ t, i ≤ t → t ≤ j → fsGet fs (bk (st ++ "." ++ ex) t) = some (v t)) →
    fsGet fs (bk (st ++ "." ++ ex) (j + 1)) = none →
    (if m ≤ i then
       sizeRotateF fuel maxS m bl fz fs (bk (st ++ "." ++ ex) i) = some (false, fs)
     else ∃ fs',
       sizeRotateF fuel maxS m bl fz fs (bk (st ++ "." ++ ex) i) = some (true, fs')
       ∧ (∀ t, i + 1 ≤ t → t ≤ min (j + 1) m →
           fsGet fs' (bk (st ++ "." ++ ex) t) = some (v (t - 1)))
       ∧ fsGet fs' (bk (st ++ "." ++ ex) i) = none
       ∧ (∀ x, (∀ t, i ≤ t → t ≤ min (j + 1) m → x ≠ bk (st ++ "." ++ ex) t) →
           fsGet fs' x = fsGet fs x)) := by
  have hse : stemExt (st ++ "." ++ ex) = (st, some ex) := stemExt_app hst hexd
  have hpne : (st ++ "." ++ ex) ≠ "" := by
    intro h
    have hd := congrArg String.data h
    rw [data_append3] at hd
    simp at hd
  have hsebk : ∀ t, stemExt (bk (st ++ "." ++ ex) t) =
      (st ++ "." ++ ex, some (natToDec t)) := fun t => stemExt_bk hpne t
  intro fuel
  induction fuel with
  | zero => intro i fs h1i hij hfuel _ _; omega
  | succ fuel ih =>
    intro i fs h1i hij hfuel hchain htop
    have hi32 : i < 2 ^ 32 := by omega
    have h2 : fsGet fs (bk (st ++ "." ++ ex) i) = some (v i) := hchain i le_rfl hij
    have h3 : (stemExt (stemExt (bk (st ++ "." ++ ex) i)).1).2 = some ex := by
      rw [hsebk i]
      exact congrArg Prod.snd hse
    have h5 : parseU32 (((stemExt (bk (st ++ "." ++ ex) i)).2).getD "") = some i := by
      rw [hsebk i]
      exact parseU32_natToDec i hi32
    have hfn : (stemExt (stemExt (bk (st ++ "." ++ ex) i)).1).1 ++ "." ++ ex ++ "."
        ++ natToDec (i + 1) = bk (st ++ "." ++ ex) (i + 1) := by
      rw [hsebk i]
      rw [show ((st ++ "." ++ ex, some (natToDec i)) : String × Option String).1
            = st ++ "." ++ ex from rfl]
      rw [show (stemExt (st ++ "." ++ ex)).1 = st from by rw [hse]]
      exact fname_eq st ex (i + 1)
    by_cases him : m ≤ i
    · -- the incremented number would exceed max_backup: abort
      rw [if_pos him]
      have h6 : i + 1 > m := by omega
      exact sizeRotateF_num_abort fuel hbr h2 h3 h5 h6
    · rw [if_neg him]
      have h6 : ¬ i + 1 > m := by omega
      have hi132 : i + 1 < 2 ^ 32 := by omega
      by_cases hnext : i + 1 ≤ j
      · -- the next slot is occupied: recurse, then rename over it
        have h4 : fsGet fs (bk (st ++ "." ++ ex) (i + 1)) = some (v (i + 1)) :=
          hchain (i + 1) (by omega) hnext
        have heq := sizeRotateF_num_occupied fuel hbr h2 h3 h5 h6 (hfn ▸ h4)
        rw [hfn] at heq
        rw [heq]
        have hrec := ih (i + 1) fs (by omega) hnext (by omega)
          (fun t ht1 ht2 => hchain t (by omega) ht2) htop
        by_cases him1 : m ≤ i + 1
        · -- the recursive call aborts; its `false` is ignored and the rename
          -- overwrites the topmost backup
          rw [if_pos him1] at hrec
          have hmin : min (j + 1) m = i + 1 := by omega
          have hren := fsRename_some (bk (st ++ "." ++ ex) (i + 1)) h2
          simp only [hrec, hren]
          refine ⟨_, rfl, ?_, ?_, ?_⟩
          · intro t ht1 ht2
            have ht : t = i + 1 := by omega
            subst ht
            rw [fsGet_rename _ _ h2, if_pos rfl]
            simp
          · rw [fsGet_rename _ _ h2,
              if_neg (fun hxx => by
                have := bk_inj (p := st ++ "." ++ ex) hi32 hi132 hxx
                omega),
              if_pos rfl]
          · intro x hx
            rw [fsGet_rename _ _ h2,
              if_neg (hx (i + 1) (by omega) (by omega)),
              if_neg (hx i le_rfl (by omega))]
        · rw [if_neg him1] at hrec
          obtain ⟨fs₁, hrun, hshift, hgone, hrest⟩ := hrec
          have hkeep : fsGet fs₁ (bk (st ++ "." ++ ex) i) = some (v i) := by
            rw [hrest _ (fun t ht1 ht2 => fun hxx => by
              have := bk_inj (p := st ++ "." ++ ex) hi32 (by omega) hxx
              omega)]
            exact h2
          have hren := fsRename_some (bk (st ++ "." ++ ex) (i + 1)) hkeep
          simp only [hrun, hren]
          refine ⟨_, rfl, ?_, ?_, ?_⟩
          · intro t ht1 ht2
            by_cases ht : t = i + 1
            · subst ht
              rw [fsGet_rename _ _ hkeep, if_pos rfl]
              simp
            · rw [fsGet_rename _ _ hkeep,
                if_neg (fun hxx => ht (bk_inj (p := st ++ "." ++ ex) (by omega) hi132 hxx)),
                if_neg (fun hxx => by
                  have := bk_inj (p := st ++ "." ++ ex) (by omega) hi32 hxx
                  omega)]
              exact hshift t (by omega) (by omega)
          · rw [fsGet_rename _ _ hkeep,
              if_neg (fun hxx => by
                have := bk_inj (p := st ++ "." ++ ex) hi32 hi132 hxx
                omega),
              if_pos rfl]
          · intro x hx
            rw [fsGet_rename _ _ hkeep,
              if_neg (hx (i + 1) (by omega) (by omega)),
              if_neg (hx i le_rfl (by omega))]
            exact hrest x (fun t ht1 ht2 => hx t (by omega) ht2)
      · -- the next slot is free: rename straight into it
        have hij' : i = j := by omega
        have h4 : fsGet fs (bk (st ++ "." ++ ex) (i + 1)) = none := by
          rw [hij']; exact htop
        have heq := sizeRotateF_num_free fuel hbr h2 h3 h5 h6 (hfn ▸ h4)
        rw [hfn] at heq
        rw [heq]
        have hmin : min (j + 1) m = j + 1 := by omega
        refine ⟨_, rfl, ?_, ?_, ?_⟩
        · intro t ht1 ht2
          have ht : t = i + 1 := by omega
          subst ht
          rw [fsGet_fsInsert, if_pos rfl]
          simp
        · rw [fsGet_fsInsert,
            if_neg (fun hxx => by
              have := bk_inj (p := st ++ "." ++ ex) hi32 hi132 hxx
              omega),
            fsGet_fsRemove, if_pos rfl]
        · intro x hx
          rw [fsGet_fsInsert, if_neg (hx (i + 1) (by omega) (by omega)),
            fsGet_fsRemove, if_neg (hx i le_rfl (by omega))]

theorem fname_one (st ex : String) : st ++ "." ++ ex ++ ".1" = bk (st ++ "." ++ ex) 1 := by
  apply string_eq_of_data
  rw [String.data_append, bk_data, data_append3]
  rfl

/-- One full `SizeRotatePolicy::rotate` call on the governed file `st.ex`
whose backups occupy exactly slots `1 .. j`: the call reports `true`, the
chain shifts up one slot (capped at `m`), slot 1 receives the old live file,
and nothing else moves. -/
theorem topShift (st ex : String) (hst : st ≠ "") (hstd : '.' ∉ st.data)
    (hexd : '.' ∉ ex.data) (maxS m bl fz : Nat) (hbr : ¬ maxS > bl + fz)
    (hm32 : m < 2 ^ 32) (hm1 : 1 ≤ m) (v : Nat → FileC) (j : Nat) (hj : j ≤ m) (fs : FS)
    (hp : fsGet fs (st ++ "." ++ ex) = some (v 0))
    (hchain : ∀ t, 1 ≤ t → t ≤ j → fsGet fs (bk (st ++ "." ++ ex) t) = some (v t))
    (htop : fsGet fs (bk (st ++ "." ++ ex) (j + 1)) = none) :
    ∃ fs', sizeRotateTop maxS m bl fz fs (st ++ "." ++ ex) = some (true, fs')
      ∧ (∀ t, 1 ≤ t → t ≤ min (j + 1) m →
          fsGet fs' (bk (st ++ "." ++ ex) t) = some (v (t - 1)))
      ∧ fsGet fs' (st ++ "." ++ ex) = none
      ∧ (∀ x, x ≠ st ++ "." ++ ex →
          (∀ t, 1 ≤ t → t ≤ min (j + 1) m → x ≠ bk (st ++ "." ++ ex) t) →
          fsGet fs' x = fsGet fs x) := by
  have hse : stemExt (st ++ "." ++ ex) = (st, some ex) := stemExt_app hst hexd
  have h3 : (stemExt (stemExt (st ++ "." ++ ex)).1).2 = none := by
    rw [hse]
    exact congrArg Prod.snd (stemExt_noDot hstd)
  have hfn : (stemExt (st ++ "." ++ ex)).1 ++ "."
      ++ ((stemExt (st ++ "." ++ ex)).2).getD "" ++ ".1" = bk (st ++ "." ++ ex) 1 := by
    rw [hse]
    exact fname_one st ex
  unfold sizeRotateTop
  by_cases hj0 : j = 0
  · -- no backups yet: rename straight into slot 1
    subst hj0
    have h4 : fsGet fs (bk (st ++ "." ++ ex) 1) = none := htop
    have heq := sizeRotateF_else_free (m := m) (m + 1) hbr hp h3 (hfn ▸ h4)
    rw [hfn] at heq
    rw [heq]
    have hmin : min (0 + 1) m = 1 := by omega
    refine ⟨_, rfl, ?_, ?_, ?_⟩
    · intro t ht1 ht2
      have ht : t = 1 := by omega
      subst ht
      rw [fsGet_fsInsert, if_pos rfl]
    · rw [fsGet_fsInsert, if_neg (fun hxx => bk_ne _ 1 hxx.symm),
        fsGet_fsRemove, if_pos rfl]
    · intro x hxp hx
      rw [fsGet_fsInsert, if_neg (hx 1 le_rfl (by omega)), fsGet_fsRemove, if_neg hxp]
  · have hj1 : 1 ≤ j := by omega
    have h4 : fsGet fs (bk (st ++ "." ++ ex) 1) = some (v 1) := hchain 1 le_rfl hj1
    have heq := sizeRotateF_else_occupied (m := m) (m + 1) hbr hp h3 (hfn ▸ h4)
    rw [hfn] at heq
    rw [heq]
    have hrec := cascadeShift st ex hst hstd hexd maxS m bl fz hbr hm32 v j hj
      (m + 1) 1 fs le_rfl hj1 (by omega) hchain htop
    by_cases hm1' : m ≤ 1
    · -- `m = 1`: the single backup slot is overwritten by the rename
      rw [if_pos hm1'] at hrec
      have hren := fsRename_some (bk (st ++ "." ++ ex) 1) hp
      simp only [hrec, hren]
      have hmin : min (j + 1) m = 1 := by omega
      refine ⟨_, rfl, ?_, ?_, ?_⟩
      · intro t ht1 ht2
        have ht : t = 1 := by omega
        subst ht
        rw [fsGet_rename _ _ hp, if_pos rfl]
      · rw [fsGet_rename _ _ hp, if_neg (fun hxx => bk_ne _ 1 hxx.symm), if_pos rfl]
      · intro x hxp hx
        rw [fsGet_rename _ _ hp, if_neg (hx 1 le_rfl (by omega)), if_neg hxp]
    · rw [if_neg hm1'] at hrec
      obtain ⟨fs₁, hrun, hshift, hgone, hrest⟩ := hrec
      have hkeep : fsGet fs₁ (st ++ "." ++ ex) = some (v 0) := by
        rw [hrest _ (fun t ht1 ht2 => fun hxx => bk_ne _ t hxx.symm)]
        exact hp
      have hren := fsRename_some (bk (st ++ "." ++ ex) 1) hkeep
      simp only [hrun, hren]
      refine ⟨_, rfl, ?_, ?_, ?_⟩
      · intro t ht1 ht2
        by_cases ht : t = 1
        · subst ht
          rw [fsGet_rename _ _ hkeep, if_pos rfl]
        · rw [fsGet_rename _ _ hkeep,
            if_neg (fun hxx => ht (bk_inj (p := st ++ "." ++ ex) (by omega) (by omega) hxx)),
            if_neg (fun hxx => bk_ne _ t hxx)]
          exact hshift t (by omega) ht2
      · rw [fsGet_rename _ _ hkeep, if_neg (fun hxx => bk_ne _ 1 hxx.symm), if_pos rfl]
      · intro x hxp hx
        rw [fsGet_rename _ _ hkeep, if_neg (hx 1 le_rfl (by omega)), if_neg hxp]
        exact hrest x (fun t ht1 ht2 => hx t (by omega) ht2)

theorem natToDec_inj_all {a b : Nat} (h : natToDec a = natToDec b) : a = b := by
  have hd : toDigits a = toDigits b := congrArg String.data h
  have ha := parseDigitsCore_toDigits a 0
  have hb := parseDigitsCore_toDigits b 0
  rw [hd, hb] at ha
  simp at ha
  omega

theorem bk_inj_all {p : String} {i j : Nat} (h : bk p i = bk p j) : i = j := by
  have hd := congrArg String.data h
  rw [bk_data, bk_data] at hd
  have := List.append_cancel_left hd
  have hdig : toDigits i = toDigits j := by simpa using this
  exact natToDec_inj_all (congrArg String.mk hdig)

/-- The full characterisation of the directory after `k` size-triggered
rotation rounds of `st.ex` with `max_backup = m ≥ 1`: the live file holds the
round-`k` contents, slots `1 .. min k m` hold the previous contents newest
first, and nothing else exists. -/
theorem chainInv (st ex : String) (hst : st ≠ "") (hstd : '.' ∉ st.data)
    (hexd : '.' ∉ ex.data) (m : Nat) (hm1 : 1 ≤ m) (hm32 : m < 2 ^ 32)
    (c : Nat → FileC) (hc : ∀ r, c r ≠ []) :
    ∀ k,
      fsGet (chainState 1 m (st ++ "." ++ ex) c k) (st ++ "." ++ ex) = some (c k)
      ∧ (∀ t, 1 ≤ t → t ≤ min k m →
          fsGet (chainState 1 m (st ++ "." ++ ex) c k) (bk (st ++ "." ++ ex) t)
            = some (c (k - t)))
      ∧ (∀ t, min k m < t →
          fsGet (chainState 1 m (st ++ "." ++ ex) c k) (bk (st ++ "." ++ ex) t) = none)
      ∧ (∀ x, x ≠ st ++ "." ++ ex → (∀ t, 1 ≤ t → x ≠ bk (st ++ "." ++ ex) t) →
          fsGet (chainState 1 m (st ++ "." ++ ex) c k) x = none) := by
  intro k
  induction k with
  | zero =>
    refine ⟨?_, ?_, ?_, ?_⟩
    · simp [chainState, fsGet_fsInsert]
    · intro t ht1 ht2; omega
    · intro t ht
      rw [show chainState 1 m (st ++ "." ++ ex) c 0
            = fsInsert [] (st ++ "." ++ ex) (c 0) from rfl]
      rw [fsGet_fsInsert, if_neg (bk_ne _ t)]
      rfl
    · intro x hxp hx
      rw [show chainState 1 m (st ++ "." ++ ex) c 0
            = fsInsert [] (st ++ "." ++ ex) (c 0) from rfl]
      rw [fsGet_fsInsert, if_neg hxp]
      rfl
  | succ k IH =>
    obtain ⟨IH1, IH2, IH3, IH4⟩ := IH
    have hbr : ¬ (1 : Nat) > (c (k + 1)).length + (c k).length := by
      have : (c (k + 1)).length ≠ 0 := by
        intro hlen
        exact hc (k + 1) (List.eq_nil_of_length_eq_zero hlen)
      omega
    have hts := topShift st ex hst hstd hexd 1 m (c (k + 1)).length (c k).length hbr
      hm32 hm1 (fun t => c (k - t)) (min k m) (by omega)
      (chainState 1 m (st ++ "." ++ ex) c k) IH1
      (fun t ht1 ht2 => IH2 t ht1 ht2)
      (IH3 (min k m + 1) (by omega))
    obtain ⟨fs', heq, hsh, hpn, hoth⟩ := hts
    have hstep : chainState 1 m (st ++ "." ++ ex) c (k + 1)
        = fsInsert fs' (st ++ "." ++ ex) (c (k + 1)) := by
      rw [show chainState 1 m (st ++ "." ++ ex) c (k + 1)
            = sizeStep 1 m (st ++ "." ++ ex) (c (k + 1))
                (chainState 1 m (st ++ "." ++ ex) c k) from rfl]
      unfold sizeStep
      rw [IH1]
      simp only [Option.getD_some]
      rw [heq]
    rw [hstep]
    refine ⟨?_, ?_, ?_, ?_⟩
    · rw [fsGet_fsInsert, if_pos rfl]
    · intro t ht1 ht2
      rw [fsGet_fsInsert, if_neg (bk_ne _ t)]
      have hv := hsh t ht1 (by omega)
      rw [hv]
      show some (c (k - (t - 1))) = some (c (k + 1 - t))
      have harith : k - (t - 1) = k + 1 - t := by omega
      rw [harith]
    · intro t ht
      rw [fsGet_fsInsert, if_neg (bk_ne _ t)]
      rw [hoth _ (bk_ne _ t) (fun t' ht1 ht2 => fun hxx => by
        have := bk_inj_all hxx
        omega)]
      exact IH3 t (by omega)
    · intro x hxp hx
      rw [fsGet_fsInsert, if_neg hxp]
      rw [hoth x hxp (fun t' ht1 ht2 => hx t' ht1)]
      exact IH4 x hxp hx

/-! ### Shared helpers for the claim theorems -/

theorem appDot_ne_empty (st ex : String) : st ++ "." ++ ex ≠ "" := by
  intro h
  have hd := congrArg String.data h
  rw [data_append3] at hd
  simp at hd

theorem stemExt_snd_of_app {st ex : String} (hst : st ≠ "") (hexd : '.' ∉ ex.data) (i : Nat) :
    (stemExt (stemExt (bk (st ++ "." ++ ex) i)).1).2 = some ex := by
  rw [stemExt_bk (appDot_ne_empty st ex) i]
  exact congrArg Prod.snd (stemExt_app hst hexd)

theorem parse_bk_suffix {st ex : String} (i : Nat) (hi : i < 2 ^ 32) :
    parseU32 (((stemExt (bk (st ++ "." ++ ex) i)).2).getD "") = some i := by
  rw [stemExt_bk (appDot_ne_empty st ex) i]
  exact parseU32_natToDec i hi

/-- `LogFile::write` when the size policy rotates: the path is reopened empty
and the pending bytes land in the fresh file. -/
theorem sizeWrite_rotated {maxS m : Nat} {fs fs₀ : FS} {p : String} {buf f : FileC}
    (hget : fsGet fs p = some f)
    (hrot : sizeRotateTop maxS m buf.length f.length fs p = some (true, fs₀))
    (hnone : fsGet fs₀ p = none) :
    sizeWrite maxS m ⟨true, p⟩ buf fs
      = some (buf.length, ⟨true, p⟩, fsInsert (fsInsert fs₀ p []) p buf) := by
  unfold sizeWrite Sink.write tryRotate
  simp only [hget, Option.getD_some, hrot, openAt, hnone, appendAt]
  simp [fsGet_fsInsert]
  rfl

/-! ### Claim C1 -/

/-- Claim C1 (corrected).  Part (a): whenever `maxFileSize` strictly exceeds
the pending length plus the handle's current length, the size policy's
`rotate` returns `false` and leaves the directory untouched (no rename).
Part (b): when the pending write brings the total to `maxFileSize` or
beyond, the governed `st.ex` exists, its backup chain occupies slots
`1 .. j` and `maxBackupCount = m ≥ 1` (so the name computation neither
panics nor aborts on the target), `LogFile::write` performs the rotation —
the old contents move into slot 1 — and then appends the pending bytes to
the freshly reopened file. -/
theorem c1_theorem :
    (∀ (maxS m bl fz : Nat) (fs : FS) (p : String), maxS > bl + fz →
      sizeRotateTop maxS m bl fz fs p = some (false, fs))
    ∧ (∀ (st ex : String), st ≠ "" → '.' ∉ st.data → '.' ∉ ex.data →
       ∀ (m : Nat), 1 ≤ m → m < 2 ^ 32 →
       ∀ (v : Nat → FileC) (j : Nat), j ≤ m →
       ∀ (fs : FS) (buf : FileC) (maxS : Nat),
         fsGet fs (st ++ "." ++ ex) = some (v 0) →
         (∀ t, 1 ≤ t → t ≤ j → fsGet fs (bk (st ++ "." ++ ex) t) = some (v t)) →
         fsGet fs (bk (st ++ "." ++ ex) (j + 1)) = none →
         maxS ≤ buf.length + (v 0).length →
         ∃ fs', sizeWrite maxS m ⟨true, st ++ "." ++ ex⟩ buf fs
             = some (buf.length, ⟨true, st ++ "." ++ ex⟩, fs')
           ∧ fsGet fs' (st ++ "." ++ ex) = some buf
           ∧ (∀ t, 1 ≤ t → t ≤ min (j + 1) m →
               fsGet fs' (bk (st ++ "." ++ ex) t) = some (v (t - 1)))
           ∧ (∀ x, x ≠ st ++ "." ++ ex →
               (∀ t, 1 ≤ t → t ≤ min (j + 1) m → x ≠ bk (st ++ "." ++ ex) t) →
               fsGet fs' x = fsGet fs x)) := by
  constructor
  · intro maxS m bl fz fs p h
    exact sizeRotateF_noBreach (m + 1) h
  · intro st ex hst hstd hexd m hm1 hm32 v j hj fs buf maxS hp hchain htop hbr
    have hbr' : ¬ maxS > buf.length + (v 0).length := by omega
    obtain ⟨fs₀, heq, hsh, hpn, hoth⟩ := topShift st ex hst hstd hexd maxS m
      buf.length (v 0).length hbr' hm32 hm1 v j hj fs hp hchain htop
    refine ⟨fsInsert (fsInsert fs₀ (st ++ "." ++ ex) []) (st ++ "." ++ ex) buf,
      sizeWrite_rotated hp heq hpn, ?_, ?_, ?_⟩
    · rw [fsGet_fsInsert, if_pos rfl]
    · intro t ht1 ht2
      rw [fsGet_fsInsert, if_neg (bk_ne _ t), fsGet_fsInsert, if_neg (bk_ne _ t)]
      exact hsh t ht1 ht2
    · intro x hxp hx
      rw [fsGet_fsInsert, if_neg hxp, fsGet_fsInsert, if_neg hxp]
      exact hoth x hxp hx

/-- Claim C1, counterexample to the claim as stated: for the governed path
`app.log.1` with `maxBackupCount = 1`, a pending write that brings the total
to `maxFileSize` while the path exists performs no rotation at all —
`rotate` returns `false` and the directory is unchanged. -/
theorem c1_counterexample :
    (10 : Nat) ≤ 5 + 10
    ∧ fsGet [("app.log.1", [0, 0, 0, 0, 0, 0, 0, 0, 0, 0])] "app.log.1"
        = some [0, 0, 0, 0, 0, 0, 0, 0, 0, 0]
    ∧ sizeRotateTop 10 1 5 10 [("app.log.1", [0, 0, 0, 0, 0, 0, 0, 0, 0, 0])] "app.log.1"
        = some (false, [("app.log.1", [0, 0, 0, 0, 0, 0, 0, 0, 0, 0])]) := by
  decide

/-- Claim C1, witness instantiating both parts of `c1_theorem`. -/
theorem c1_witness :
    sizeRotateTop 10 5 1 2 [("a.b", [1, 2])] "a.b" = some (false, [("a.b", [1, 2])])
    ∧ ∃ fs', sizeWrite 4 1 ⟨true, "app.log"⟩ [7] [("app.log", [9, 9, 9])]
          = some (1, ⟨true, "app.log"⟩, fs')
        ∧ fsGet fs' "app.log" = some [7]
        ∧ fsGet fs' (bk "app.log" 1) = some [9, 9, 9] := by
  constructor
  · exact c1_theorem.1 10 5 1 2 [("a.b", [1, 2])] "a.b" (by decide)
  · obtain ⟨fs', h1, h2, h3, h4⟩ := c1_theorem.2 "app" "log" (by decide) (by decide)
      (by decide) 1 (by decide) (by decide) (fun _ => [9, 9, 9]) 0 (by decide)
      [("app.log", [9, 9, 9])] [7] 4 (by decide) (fun t ht1 ht2 => by omega)
      (by decide) (by decide)
    exact ⟨fs', h1, h2, h3 1 (by decide) (by decide)⟩

/-! ### Claim C2 -/

/-- Claim C2 (corrected).  After `k` consecutive size-triggered rotations of
`st.ex` with `maxBackupCount = m`, `k > m ≥ 1`, starting from a directory
holding only the governed file, the backup set is exactly the `m` numbered
backups `1 .. m` — but newest-first: slot `1` holds the most recent prior
file (contents of round `k - 1`) and slot `m` the least recent retained
(round `k - m`); every higher slot is empty and no other file exists. -/
theorem c2_theorem (st ex : String) (hst : st ≠ "") (hstd : '.' ∉ st.data)
    (hexd : '.' ∉ ex.data) (m k : Nat) (hm1 : 1 ≤ m) (hm32 : m < 2 ^ 32) (hmk : m < k)
    (c : Nat → FileC) (hc : ∀ r, c r ≠ []) :
    fsGet (chainState 1 m (st ++ "." ++ ex) c k) (st ++ "." ++ ex) = some (c k)
    ∧ (∀ i, 1 ≤ i → i ≤ m →
        fsGet (chainState 1 m (st ++ "." ++ ex) c k) (bk (st ++ "." ++ ex) i)
          = some (c (k - i)))
    ∧ (∀ i, m < i →
        fsGet (chainState 1 m (st ++ "." ++ ex) c k) (bk (st ++ "." ++ ex) i) = none)
    ∧ (∀ x, x ≠ st ++ "." ++ ex → (∀ i, 1 ≤ i → x ≠ bk (st ++ "." ++ ex) i) →
        fsGet (chainState 1 m (st ++ "." ++ ex) c k) x = none) := by
  obtain ⟨h1, h2, h3, h4⟩ := chainInv st ex hst hstd hexd m hm1 hm32 c hc k
  exact ⟨h1, fun i hi1 hi2 => h2 i hi1 (by omega), fun i hi => h3 i (by omega), h4⟩

/-- Claim C2, counterexample to the direction stated by the claim: after 3
rotations with `maxBackupCount = 2` (round `r` writes contents `[r]`),
backup number `m = 2` holds `[1]` — the *least* recent retained file — while
backup number 1 holds the most recent prior contents `[2]`. -/
theorem c2_counterexample :
    fsGet (chainState 1 2 "app.log" (fun r => [r]) 3) "app.log.1" = some [2]
    ∧ fsGet (chainState 1 2 "app.log" (fun r => [r]) 3) "app.log.2" = some [1]
    ∧ ([1] : FileC) ≠ [2] := by
  decide

/-- Claim C2, witness instantiating `c2_theorem` at `m = 2`, `k = 3`. -/
theorem c2_witness :
    fsGet (chainState 1 2 ("app" ++ "." ++ "log") (fun r => [r]) 3) ("app" ++ "." ++ "log")
      = some [3]
    ∧ fsGet (chainState 1 2 ("app" ++ "." ++ "log") (fun r => [r]) 3)
        (bk ("app" ++ "." ++ "log") 1) = some [2]
    ∧ fsGet (chainState 1 2 ("app" ++ "." ++ "log") (fun r => [r]) 3)
        (bk ("app" ++ "." ++ "log") 2) = some [1]
    ∧ fsGet (chainState 1 2 ("app" ++ "." ++ "log") (fun r => [r]) 3)
        (bk ("app" ++ "." ++ "log") 3) = none := by
  obtain ⟨h1, h2, h3, h4⟩ := c2_theorem "app" "log" (by decide) (by decide) (by decide)
    2 3 (by decide) (by decide) (by decide) (fun r => [r]) (fun r => by simp)
  exact ⟨h1, h2 1 (by decide) (by decide), h2 2 (by decide) (by decide), h3 3 (by decide)⟩

/-! ### Claim C3 -/

/-- Claim C3 (corrected).  Part (a): the abort applies when `rotate` lands
*directly* on a file whose own numeric suffix, incremented, would exceed
`maxBackupCount` — then it returns `false` and renames nothing.  Part (b):
but in the claim's scenario (`maxBackupCount = 1`, `app.log.1` present, size
breach of `app.log`) the abort happens only in the ignored recursive call:
`app.log` is still renamed onto `app.log.1`, overwriting it — the rotation
does go ahead and the live file does not keep growing. -/
theorem c3_theorem :
    (∀ (maxS m bl fz : Nat) (fs : FS) (p : String) (f : FileC) (lext : String) (nn : Nat),
      ¬ maxS > bl + fz → fsGet fs p = some f →
      (stemExt (stemExt p).1).2 = some lext →
      parseU32 (((stemExt p).2).getD "") = some nn →
      nn + 1 > m →
      sizeRotateTop maxS m bl fz fs p = some (false, fs))
    ∧ (∀ (st ex : String), st ≠ "" → '.' ∉ st.data → '.' ∉ ex.data →
       ∀ (fs : FS) (a b : FileC) (maxS bl fz : Nat),
         ¬ maxS > bl + fz →
         fsGet fs (st ++ "." ++ ex) = some a →
         fsGet fs (bk (st ++ "." ++ ex) 1) = some b →
         ∃ fs', sizeRotateTop maxS 1 bl fz fs (st ++ "." ++ ex) = some (true, fs')
           ∧ fsGet fs' (st ++ "." ++ ex) = none
           ∧ fsGet fs' (bk (st ++ "." ++ ex) 1) = some a) := by
  constructor
  · intro maxS m bl fz fs p f lext nn h1 h2 h3 h5 h6
    exact sizeRotateF_num_abort (m + 1) h1 h2 h3 h5 h6
  · intro st ex hst hstd hexd fs a b maxS bl fz hbr hp hb
    have hse : stemExt (st ++ "." ++ ex) = (st, some ex) := stemExt_app hst hexd
    have h3 : (stemExt (stemExt (st ++ "." ++ ex)).1).2 = none := by
      rw [hse]
      exact congrArg Prod.snd (stemExt_noDot hstd)
    have hfn : (stemExt (st ++ "." ++ ex)).1 ++ "."
        ++ ((stemExt (st ++ "." ++ ex)).2).getD "" ++ ".1" = bk (st ++ "." ++ ex) 1 := by
      rw [hse]
      exact fname_one st ex
    have habort : sizeRotateF 2 maxS 1 bl fz fs (bk (st ++ "." ++ ex) 1)
        = some (false, fs) :=
      sizeRotateF_num_abort 1 hbr hb (stemExt_snd_of_app hst hexd 1)
        (parse_bk_suffix 1 (by norm_num)) (by omega)
    have heq := sizeRotateF_else_occupied (m := 1) 2 hbr hp h3 (hfn ▸ hb)
    rw [hfn] at heq
    have heq' : sizeRotateTop maxS 1 bl fz fs (st ++ "." ++ ex)
        = match sizeRotateF 2 maxS 1 bl fz fs (bk (st ++ "." ++ ex) 1) with
          | none => none
          | some (_, fs₁) =>
            match fsRename fs₁ (st ++ "." ++ ex) (bk (st ++ "." ++ ex) 1) with
            | none => none
            | some fs₂ => some (true, fs₂) := heq
    have hren := fsRename_some (bk (st ++ "." ++ ex) 1) hp
    rw [heq']
    simp only [habort, hren]
    refine ⟨_, rfl, ?_, ?_⟩
    · rw [fsGet_rename _ _ hp, if_neg (fun hxx => bk_ne _ 1 hxx.symm), if_pos rfl]
    · rw [fsGet_rename _ _ hp, if_pos rfl]

/-- Claim C3, counterexample to the claim as stated: with `maxBackupCount = 1`
and `app.log.1` present, a size breach of `app.log` does rename `app.log` —
the file is moved onto `app.log.1` (overwriting it) and `rotate` reports
`true`, instead of aborting and leaving `app.log` to keep growing. -/
theorem c3_counterexample :
    sizeRotateTop 1 1 1 1 [("app.log", [5]), ("app.log.1", [6])] "app.log"
      = some (true, [("app.log.1", [5])])
    ∧ fsGet [("app.log.1", [5])] "app.log" = none := by
  decide

/-- Claim C3, witness instantiating both parts of `c3_theorem`. -/
theorem c3_witness :
    sizeRotateTop 7 1 3 4 [("x.y.1", [8])] "x.y.1" = some (false, [("x.y.1", [8])])
    ∧ ∃ fs', sizeRotateTop 1 1 1 1 [("app.log", [5]), ("app.log.1", [6])] "app.log"
          = some (true, fs')
        ∧ fsGet fs' "app.log" = none
        ∧ fsGet fs' (bk "app.log" 1) = some [5] := by
  constructor
  · exact c3_theorem.1 7 1 3 4 [("x.y.1", [8])] "x.y.1" [8] "y" 1 (by decide) (by decide)
      (by decide) (by decide) (by decide)
  · obtain ⟨fs', h1, h2, h3⟩ := c3_theorem.2 "app" "log" (by decide) (by decide) (by decide)
      [("app.log", [5]), ("app.log.1", [6])] [5] [6] 1 1 1 (by decide) (by decide) (by decide)
    exact ⟨fs', h1, h2, h3⟩

/-! ### Claim C4 -/

/-- Claim C4 (corrected).  With `maxBackupCount = 0` the size policy still
rotates: the first-backup branch builds the `.1` name without consulting the
bound, so on every breach the governed `st.ex` is renamed onto `st.ex.1`
(overwriting whatever was there — only the recursive shift aborts), the call
reports `true`, and nothing else moves. -/
theorem c4_theorem (st ex : String) (hst : st ≠ "") (hstd : '.' ∉ st.data)
    (hexd : '.' ∉ ex.data) (fs : FS) (a : FileC) (maxS bl fz : Nat)
    (hbr : ¬ maxS > bl + fz)
    (hp : fsGet fs (st ++ "." ++ ex) = some a) :
    ∃ fs', sizeRotateTop maxS 0 bl fz fs (st ++ "." ++ ex) = some (true, fs')
      ∧ fsGet fs' (st ++ "." ++ ex) = none
      ∧ fsGet fs' (bk (st ++ "." ++ ex) 1) = some a
      ∧ (∀ x, x ≠ st ++ "." ++ ex → x ≠ bk (st ++ "." ++ ex) 1 →
          fsGet fs' x = fsGet fs x) := by
  have hse : stemExt (st ++ "." ++ ex) = (st, some ex) := stemExt_app hst hexd
  have h3 : (stemExt (stemExt (st ++ "." ++ ex)).1).2 = none := by
    rw [hse]
    exact congrArg Prod.snd (stemExt_noDot hstd)
  have hfn : (stemExt (st ++ "." ++ ex)).1 ++ "."
      ++ ((stemExt (st ++ "." ++ ex)).2).getD "" ++ ".1" = bk (st ++ "." ++ ex) 1 := by
    rw [hse]
    exact fname_one st ex
  cases hb1 : fsGet fs (bk (st ++ "." ++ ex) 1) with
  | none =>
    have heq := sizeRotateF_else_free (m := 0) 1 hbr hp h3 (hfn ▸ hb1)
    rw [hfn] at heq
    have heq' : sizeRotateTop maxS 0 bl fz fs (st ++ "." ++ ex)
        = some (true, fsInsert (fsRemove fs (st ++ "." ++ ex))
            (bk (st ++ "." ++ ex) 1) a) := heq
    refine ⟨_, heq', ?_, ?_, ?_⟩
    · rw [fsGet_fsInsert, if_neg (fun hxx => bk_ne _ 1 hxx.symm),
        fsGet_fsRemove, if_pos rfl]
    · rw [fsGet_fsInsert, if_pos rfl]
    · intro x hxp hxb
      rw [fsGet_fsInsert, if_neg hxb, fsGet_fsRemove, if_neg hxp]
  | some b =>
    have habort : sizeRotateF 1 maxS 0 bl fz fs (bk (st ++ "." ++ ex) 1)
        = some (false, fs) :=
      sizeRotateF_num_abort 0 hbr hb1 (stemExt_snd_of_app hst hexd 1)
        (parse_bk_suffix 1 (by norm_num)) (by omega)
    have heq := sizeRotateF_else_occupied (m := 0) 1 hbr hp h3 (hfn ▸ hb1)
    rw [hfn] at heq
    have heq' : sizeRotateTop maxS 0 bl fz fs (st ++ "." ++ ex)
        = match sizeRotateF 1 maxS 0 bl fz fs (bk (st ++ "." ++ ex) 1) with
          | none => none
          | some (_, fs₁) =>
            match fsRename fs₁ (st ++ "." ++ ex) (bk (st ++ "." ++ ex) 1) with
            | none => none
            | some fs₂ => some (true, fs₂) := heq
    have hren := fsRename_some (bk (st ++ "." ++ ex) 1) hp
    rw [heq']
    simp only [habort, hren]
    refine ⟨_, rfl, ?_, ?_, ?_⟩
    · rw [fsGet_rename _ _ hp, if_neg (fun hxx => bk_ne _ 1 hxx.symm), if_pos rfl]
    · rw [fsGet_rename _ _ hp, if_pos rfl]
    · intro x hxp hxb
      rw [fsGet_rename _ _ hp, if_neg hxb, if_neg hxp]

/-- Claim C4, counterexample to the claim as stated: with `maxBackupCount = 0`
a size breach of `app.log` performs a rotation — `app.log` is renamed to
`app.log.1` and `rotate` reports `true` — so 0 does not disable rotation. -/
theorem c4_counterexample :
    sizeRotateTop 1 0 1 1 [("app.log", [7])] "app.log"
      = some (true, [("app.log.1", [7])]) := by
  decide

/-- Claim C4, witness instantiating `c4_theorem` (with the `.1` slot already
occupied, so the overwriting branch is exercised too). -/
theorem c4_witness :
    ∃ fs', sizeRotateTop 1 0 1 1 [("app.log", [7]), ("app.log.1", [2])] "app.log"
        = some (true, fs')
      ∧ fsGet fs' "app.log" = none
      ∧ fsGet fs' (bk "app.log" 1) = some [7] := by
  obtain ⟨fs', h1, h2, h3, h4⟩ := c4_theorem "app" "log" (by decide) (by decide) (by decide)
    [("app.log", [7]), ("app.log.1", [2])] [7] 1 1 1 (by decide) (by decide)
  exact ⟨fs', h1, h2, h3⟩

/-! ### Claim C10 -/

/-- Claim C10 (corrected).  Part (a): the parse-and-increment branch is
entered whenever the *stem* of the governed name itself has an extension
segment, regardless of whether the final segment is numeric; if that final
segment does not parse as a `u32` the `unwrap` panics (modelled `none`), so
a file such as `app.tar.gz` makes `evaluate` fail rather than fall through.
Part (b): the `.1` first-backup name is only constructed when the stem has
no extension segment. -/
theorem c10_theorem :
    (∀ (maxS m bl fz : Nat) (fs : FS) (p : String) (f : FileC) (lext : String),
      ¬ maxS > bl + fz → fsGet fs p = some f →
      (stemExt (stemExt p).1).2 = some lext →
      parseU32 (((stemExt p).2).getD "") = none →
      sizeRotateTop maxS m bl fz fs p = none)
    ∧ (∀ (st ex : String), st ≠ "" → '.' ∉ st.data → '.' ∉ ex.data →
       ∀ (m : Nat) (fs : FS) (f : FileC) (maxS bl fz : Nat),
         ¬ maxS > bl + fz →
         fsGet fs (st ++ "." ++ ex) = some f →
         fsGet fs (bk (st ++ "." ++ ex) 1) = none →
         sizeRotateTop maxS m bl fz fs (st ++ "." ++ ex)
           = some (true, fsInsert (fsRemove fs (st ++ "." ++ ex))
               (bk (st ++ "." ++ ex) 1) f)) := by
  constructor
  · intro maxS m bl fz fs p f lext h1 h2 h3 h5
    exact sizeRotateF_num_panic (m + 1) h1 h2 h3 h5
  · intro st ex hst hstd hexd m fs f maxS bl fz hbr hp hb1
    have hse : stemExt (st ++ "." ++ ex) = (st, some ex) := stemExt_app hst hexd
    have h3 : (stemExt (stemExt (st ++ "." ++ ex)).1).2 = none := by
      rw [hse]
      exact congrArg Prod.snd (stemExt_noDot hstd)
    have hfn : (stemExt (st ++ "." ++ ex)).1 ++ "."
        ++ ((stemExt (st ++ "." ++ ex)).2).getD "" ++ ".1" = bk (st ++ "." ++ ex) 1 := by
      rw [hse]
      exact fname_one st ex
    have heq := sizeRotateF_else_free (m := m) (m + 1) hbr hp h3 (hfn ▸ hb1)
    rw [hfn] at heq
    exact heq

/-- Claim C10, counterexample to the claim as stated: for the governed file
`app.tar.gz` (non-numeric final extension) a size breach makes `evaluate`
panic on `"gz".parse::<u32>().unwrap()` (modelled `none`) instead of
constructing a `.1` backup name without failing. -/
theorem c10_counterexample :
    ¬ (1 : Nat) > 1 + 1
    ∧ fsGet [("app.tar.gz", [0])] "app.tar.gz" = some [0]
    ∧ sizeRotateTop 1 5 1 1 [("app.tar.gz", [0])] "app.tar.gz" = none := by
  decide

/-- Claim C10, witness instantiating both parts of `c10_theorem`. -/
theorem c10_witness :
    sizeRotateTop 1 5 1 1 [("app.tar.gz", [0])] "app.tar.gz" = none
    ∧ sizeRotateTop 1 5 1 1 [("app.log", [3])] "app.log"
        = some (true, fsInsert (fsRemove [("app.log", [3])] "app.log") (bk "app.log" 1) [3]) := by
  constructor
  · exact c10_theorem.1 1 5 1 1 [("app.tar.gz", [0])] "app.tar.gz" [0] "tar" (by decide)
      (by decide) (by decide) (by decide)
  · exact c10_theorem.2 "app" "log" (by decide) (by decide) (by decide) 5
      [("app.log", [3])] [3] 1 1 1 (by decide) (by decide) (by decide)

/-! ### Claim C9 -/

/-- Claim C9 (corrected).  Part (a): when the sink's handle is `None`,
`write` does not open anything — the policy is not consulted, the directory
is untouched, the handle stays absent, and the call returns `Ok(0)`,
silently dropping the pending bytes.  Part (b): a fresh handle only appears
through the reopen that follows a rotation (or an explicit `open`): when a
handle exists and the policy rotates, the path is reopened (created empty if
absent) and the bytes are appended there. -/
theorem c9_theorem :
    (∀ (s : Sink) (rot : FS → Option (Bool × FS)) (buf : FileC) (fs : FS),
      s.hasHandle = false → Sink.write s rot buf fs = some (0, s, fs))
    ∧ (∀ (s : Sink) (rot : FS → Option (Bool × FS)) (buf : FileC) (fs fs₁ : FS),
      s.hasHandle = true → rot fs = some (true, fs₁) →
      Sink.write s rot buf fs
        = some (buf.length, s, appendAt (openAt fs₁ s.logFile) s.logFile buf)) := by
  constructor
  · intro s rot buf fs h
    unfold Sink.write tryRotate
    rw [h]
    simp
  · intro s rot buf fs fs₁ h hrot
    unfold Sink.write tryRotate
    rw [h, hrot]
    simp

/-- Claim C9, counterexample to the claim as stated: a sink whose handle is
`None` does not open the file on the next write — the write returns 0 bytes
written, the directory stays empty (no `app.log` is created), and the
pending bytes are dropped. -/
theorem c9_counterexample :
    Sink.write ⟨false, "app.log"⟩ (fun fs => some (true, fsRemove fs "app.log")) [1, 2] []
      = some (0, ⟨false, "app.log"⟩, [])
    ∧ fsGet ([] : FS) "app.log" = none := by
  decide

/-- Claim C9, witness instantiating both parts of `c9_theorem`. -/
theorem c9_witness :
    Sink.write ⟨false, "a.b"⟩ (fun fs => some (false, fs)) [7] [("x", [1])]
      = some (0, ⟨false, "a.b"⟩, [("x", [1])])
    ∧ Sink.write ⟨true, "a.b"⟩ (fun fs => some (true, fs)) [7] [("a.b", [1])]
        = some (1, ⟨true, "a.b"⟩,
            appendAt (openAt [("a.b", [1])] "a.b") "a.b" [7]) := by
  constructor
  · exact c9_theorem.1 ⟨false, "a.b"⟩ (fun fs => some (false, fs)) [7] [("x", [1])] rfl
  · exact c9_theorem.2 ⟨true, "a.b"⟩ (fun fs => some (true, fs)) [7] [("a.b", [1])]
      [("a.b", [1])] rfl rfl

/-! ### Timed-policy helper lemmas -/

theorem advanceRolloverF_ge : ∀ (fuel now d r : Nat), r ≤ advanceRolloverF fuel now d r := by
  intro fuel
  induction fuel with
  | zero => intro now d r; exact le_rfl
  | succ fuel ih =>
    intro now d r
    unfold advanceRolloverF
    split
    · rename_i hc
      exact le_trans (by omega) (ih now d (r + d))
    · exact le_rfl

theorem advanceRolloverF_gt : ∀ (fuel now d r : Nat), 0 < d → now + 1 - r ≤ fuel →
    now < advanceRolloverF fuel now d r := by
  intro fuel
  induction fuel with
  | zero =>
    intro now d r hd hf
    unfold advanceRolloverF
    omega
  | succ fuel ih =>
    intro now d r hd hf
    unfold advanceRolloverF
    split
    · rename_i hc
      exact ih now d (r + d) hd (by omega)
    · rename_i hc
      omega

theorem advanceRollover_gt (now d r : Nat) (hd : 0 < d) :
    now < advanceRollover now d r :=
  advanceRolloverF_gt (now + 2 - r) now d r hd (by omega)

theorem advanceRollover_stay (now d r : Nat) (h : now < r) :
    advanceRollover now d r = r := by
  unfold advanceRollover
  cases hn : now + 2 - r with
  | zero => rfl
  | succ fuel =>
    unfold advanceRolloverF
    rw [if_neg (by omega : ¬ (r ≤ now ∧ 0 < d))]

theorem advanceRollover_ge (now d r : Nat) : r ≤ advanceRollover now d r :=
  advanceRolloverF_ge (now + 2 - r) now d r

theorem computeRollover_midnight_gt (tz now d : Nat) (utc : Bool) :
    now < computeRollover tz now utc true d := by
  unfold computeRollover localSod midnightSecs
  simp only [if_true]
  omega

/-- One case analysis of `timed_rotate`, shared by the timed claims. -/
theorem timedRotate_spec {tz : Nat} {pol : TimedRotatePolicy} {now : Nat} {p : String}
    {fs : FS} {b : Bool} {pol' : TimedRotatePolicy} {fs' : FS}
    (h : timedRotate tz pol now p fs = some (b, pol', fs')) :
    pol'.check_time = pol.check_time ∧ pol'.duration = pol.duration
    ∧ pol'.midnight = pol.midnight
    ∧ (b = false → pol' = pol ∧ fs' = fs)
    ∧ (b = true → pol.rollover_at ≤ now ∧
        pol'.rollover_at = advanceRollover now pol.duration
          (computeRollover tz now pol.utc pol.midnight pol.duration)) := by
  unfold timedRotate at h
  by_cases h1 : pol.rollover_at > now
  · rw [if_pos h1] at h
    simp only [Option.some.injEq, Prod.mk.injEq] at h
    obtain ⟨hb, hpol, hfs⟩ := h
    subst hb hpol hfs
    refine ⟨rfl, rfl, rfl, fun _ => ⟨rfl, rfl⟩, fun hbt => absurd hbt (by simp)⟩
  · rw [if_neg h1] at h
    by_cases h2 : (fsGet fs p).isNone = true
    · rw [if_pos h2] at h
      simp only [Option.some.injEq, Prod.mk.injEq] at h
      obtain ⟨hb, hpol, hfs⟩ := h
      subst hb hpol hfs
      refine ⟨rfl, rfl, rfl, fun _ => ⟨rfl, rfl⟩, fun hbt => absurd hbt (by simp)⟩
    · rw [if_neg h2] at h
      simp only [] at h
      split at h
      · exact absurd h (by simp)
      · rename_i fs₂ hren
        simp only [Option.some.injEq, Prod.mk.injEq] at h
        obtain ⟨hb, hpol, hfs⟩ := h
        subst hb hpol hfs
        refine ⟨rfl, rfl, rfl, fun hbf => absurd hbf (by simp), fun _ => ⟨by omega, rfl⟩⟩

theorem timedRotate_noRoll {tz : Nat} {pol : TimedRotatePolicy} {now : Nat}
    (p : String) (fs : FS) (h : pol.rollover_at > now) :
    timedRotate tz pol now p fs = some (false, pol, fs) := by
  unfold timedRotate
  rw [if_pos h]

/-! ### Claim C5 -/

/-- Claim C5 (confirmed).  Across any `timed_rotate` call (in either
timezone mode, provided the configuration is non-degenerate: midnight
alignment or a positive interval), `rollover_at` never moves backward; and
after a successful rotation the stored `rollover_at` — recomputed from the
current instant and advanced by `duration` while still `≤ now` — is strictly
in the future of the rotation instant. -/
theorem c5_theorem (tz : Nat) (pol : TimedRotatePolicy) (now : Nat) (p : String) (fs : FS)
    (b : Bool) (pol' : TimedRotatePolicy) (fs' : FS)
    (h : timedRotate tz pol now p fs = some (b, pol', fs'))
    (hdur : pol.midnight = true ∨ 0 < pol.duration) :
    pol.rollover_at ≤ pol'.rollover_at ∧ (b = true → now < pol'.rollover_at) := by
  obtain ⟨hct, hd, hm, hfalse, htrue⟩ := timedRotate_spec h
  cases b with
  | false =>
    obtain ⟨hpol, _⟩ := hfalse rfl
    rw [hpol]
    exact ⟨le_rfl, fun hbt => absurd hbt (by simp)⟩
  | true =>
    obtain ⟨hle, hroll⟩ := htrue rfl
    have hnow : now < pol'.rollover_at := by
      rw [hroll]
      rcases Nat.eq_zero_or_pos pol.duration with hd0 | hdpos
      · have hmid : pol.midnight = true := by
          rcases hdur with hmid | hpos
          · exact hmid
          · omega
        rw [hmid]
        rw [advanceRollover_stay _ _ _ (computeRollover_midnight_gt tz now pol.duration pol.utc)]
        exact computeRollover_midnight_gt tz now pol.duration pol.utc
      · exact advanceRollover_gt now pol.duration _ hdpos
    exact ⟨by omega, fun _ => hnow⟩

/-- Claim C5, witness: a concrete successful non-midnight rotation
(rollover 5000 ms, duration 1000 ms, evaluated at 6000 ms) lands strictly in
the future and does not move backward. -/
theorem c5_witness :
    (⟨5000, 1000, "F", 0, 0, false, true⟩ : TimedRotatePolicy).rollover_at
      ≤ (⟨7000, 1000, "F", 0, 0, false, true⟩ : TimedRotatePolicy).rollover_at
    ∧ (true = true →
        6000 < (⟨7000, 1000, "F", 0, 0, false, true⟩ : TimedRotatePolicy).rollover_at) := by
  have h : timedRotate 0 ⟨5000, 1000, "F", 0, 0, false, true⟩ 6000 "a.b" [("a.b", [1])]
      = some (true, ⟨7000, 1000, "F", 0, 0, false, true⟩, []) := by decide
  exact c5_theorem 0 ⟨5000, 1000, "F", 0, 0, false, true⟩ 6000 "a.b" [("a.b", [1])]
    true ⟨7000, 1000, "F", 0, 0, false, true⟩ [] h (Or.inr (by decide))

/-! ### Claim C8 -/

/-- Claim C8 (confirmed).  When a `rotate` call at `t₁` performs the real
boundary check, the throttle clock is reset to `t₁`, so any call less than
one second later performs no real check and returns `false` leaving
everything untouched; and when the call at `t₁` actually rotated, every
later call strictly before the new `rollover_at` — however far beyond the
one-second throttle — performs no further rotation. -/
theorem c8_theorem (tz : Nat) (pol : TimedRotatePolicy) (t₁ : Nat) (p : String) (fs : FS)
    (b : Bool) (pol₁ : TimedRotatePolicy) (fs₁ : FS)
    (h : rotateCall tz pol t₁ p fs = some (b, pol₁, fs₁))
    (hrc : realCheck pol t₁) :
    (∀ t₂, t₁ ≤ t₂ → t₂ - t₁ < 1000 →
      ¬ realCheck pol₁ t₂ ∧ ∀ (q : String) (fs₂ : FS),
        rotateCall tz pol₁ t₂ q fs₂ = some (false, pol₁, fs₂))
    ∧ (b = true → ∀ t', t' < pol₁.rollover_at → ∀ (q : String) (fs₂ : FS),
        ∃ pol₂, rotateCall tz pol₁ t' q fs₂ = some (false, pol₂, fs₂)
          ∧ pol₂.rollover_at = pol₁.rollover_at) := by
  unfold rotateCall at h
  rw [if_pos hrc] at h
  obtain ⟨hct, hd, hm, hfalse, htrue⟩ := timedRotate_spec h
  have hct₁ : pol₁.check_time = t₁ := hct
  constructor
  · intro t₂ hle hlt
    have hnrc : ¬ realCheck pol₁ t₂ := by
      unfold realCheck
      rw [hct₁]
      omega
    refine ⟨hnrc, fun q fs₂ => ?_⟩
    unfold rotateCall
    rw [if_neg hnrc]
  · intro hb t' ht' q fs₂
    by_cases hrc' : realCheck pol₁ t'
    · refine ⟨{ pol₁ with check_time := t' }, ?_, rfl⟩
      unfold rotateCall
      rw [if_pos hrc']
      exact timedRotate_noRoll q fs₂ (by simpa using ht')
    · refine ⟨pol₁, ?_, rfl⟩
      unfold rotateCall
      rw [if_neg hrc']

/-- Claim C8, witness: a throttled pair of calls 500 ms apart, and a later
call before the next boundary, on a concrete policy. -/
theorem c8_witness :
    (¬ realCheck ⟨7000, 1000, "F", 0, 6000, false, true⟩ 6500
      ∧ rotateCall 0 ⟨7000, 1000, "F", 0, 6000, false, true⟩ 6500 "a.b" []
          = some (false, ⟨7000, 1000, "F", 0, 6000, false, true⟩, []))
    ∧ (∃ pol₂, rotateCall 0 ⟨7000, 1000, "F", 0, 6000, false, true⟩ 6900 "q" []
          = some (false, pol₂, [])
        ∧ pol₂.rollover_at
            = (⟨7000, 1000, "F", 0, 6000, false, true⟩ : TimedRotatePolicy).rollover_at) := by
  have h : rotateCall 0 ⟨5000, 1000, "F", 0, 0, false, true⟩ 6000 "a.b" [("a.b", [1])]
      = some (true, ⟨7000, 1000, "F", 0, 6000, false, true⟩, []) := by decide
  obtain ⟨h1, h2⟩ := c8_theorem 0 ⟨5000, 1000, "F", 0, 0, false, true⟩ 6000 "a.b"
    [("a.b", [1])] true ⟨7000, 1000, "F", 0, 6000, false, true⟩ [] h (by decide)
  exact ⟨⟨(h1 6500 (by decide) (by decide)).1, (h1 6500 (by decide) (by decide)).2 "a.b" []⟩,
    h2 rfl 6900 (by decide) "q" []⟩

theorem timedNew_midnight (tz i mb seed nowT : Nat) (utcS : String) :
    timedNew tz i "MIDNIGHT" utcS mb seed nowT
      = some { rollover_at := computeRollover tz seed (decide (utcS = "U" ∨ utcS = "UTC"))
                 true 86400000,
               duration := 86400000, format := "%Y%m%d", max_backup := mb,
               check_time := nowT, midnight := true,
               utc := decide (utcS = "U" ∨ utcS = "UTC") } := by
  unfold timedNew
  rw [if_neg (show ¬ (("MIDNIGHT" : String) = "S") from by decide),
    if_neg (show ¬ (("MIDNIGHT" : String) = "M") from by decide),
    if_neg (show ¬ (("MIDNIGHT" : String) = "H") from by decide),
    if_neg (show ¬ (("MIDNIGHT" : String) = "D") from by decide),
    if_pos (rfl : ("MIDNIGHT" : String) = "MIDNIGHT")]
  norm_num

theorem computeRollover_midnight (tz now d : Nat) (utc : Bool) :
    computeRollover tz now utc true d
      = now + (midnightSecs - localSod (if utc = true then 0 else tz) now) * 1000 := by
  show now + (midnightSecs
      - ((localSod (if utc = true then 0 else tz) now / 3600 * 60
          + localSod (if utc = true then 0 else tz) now % 3600 / 60) * 60
        + localSod (if utc = true then 0 else tz) now % 60)) * 1000
    = now + (midnightSecs - localSod (if utc = true then 0 else tz) now) * 1000
  have key : ∀ S : Nat, (S / 3600 * 60 + S % 3600 / 60) * 60 + S % 60 = S :=
    fun S => by omega
  rw [key]

/-! ### Claim C6 -/

/-- Claim C6 (confirmed).  For the `MIDNIGHT` unit, the rollover computed at
construction advances the seed instant by exactly the seconds remaining
until the next local 00:00:00 (computed from the seed's
hour/minute/second): for a seed whose local time-of-day is exactly 14:30:00,
`rollover_at` is exactly 9 h 30 m after the seed, lands on a local midnight,
no earlier instant in between is a local midnight, and the configured
interval count is ignored (any two interval counts yield the same
`rollover_at`). -/
theorem c6_theorem (tz i mb seed nowT : Nat) (utcS : String) (pol : TimedRotatePolicy)
    (hpol : timedNew tz i "MIDNIGHT" utcS mb seed nowT = some pol)
    (hms : seed % 1000 = 0)
    (hsod : localSod (if utcS = "U" ∨ utcS = "UTC" then 0 else tz) seed = 52200) :
    pol.rollover_at = seed + 34200000
    ∧ pol.rollover_at % 1000 = 0
    ∧ localSod (if utcS = "U" ∨ utcS = "UTC" then 0 else tz) pol.rollover_at = 0
    ∧ (∀ u, seed < u → u < pol.rollover_at →
        ¬ (u % 1000 = 0 ∧ localSod (if utcS = "U" ∨ utcS = "UTC" then 0 else tz) u = 0))
    ∧ (∀ j q, timedNew tz j "MIDNIGHT" utcS mb seed nowT = some q →
        q.rollover_at = pol.rollover_at) := by
  rw [timedNew_midnight] at hpol
  have hpol' := Option.some.inj hpol
  have hoff : (if decide (utcS = "U" ∨ utcS = "UTC") = true then 0 else tz)
      = (if utcS = "U" ∨ utcS = "UTC" then 0 else tz) := by
    by_cases hP : utcS = "U" ∨ utcS = "UTC" <;> simp [hP]
  have hro : pol.rollover_at = seed + 34200000 := by
    rw [← hpol']
    show computeRollover tz seed (decide (utcS = "U" ∨ utcS = "UTC")) true 86400000
      = seed + 34200000
    rw [computeRollover_midnight, hoff, hsod]
    norm_num [midnightSecs]
  refine ⟨hro, ?_, ?_, ?_, ?_⟩
  · rw [hro]; omega
  · rw [hro]
    unfold localSod midnightSecs at hsod ⊢
    omega
  · intro u h1 h2 hand
    obtain ⟨hu0, hus⟩ := hand
    rw [hro] at h2
    unfold localSod midnightSecs at hsod hus
    omega
  · intro j q hq
    rw [timedNew_midnight] at hq
    have hq' := Option.some.inj hq
    rw [← hq', ← hpol']

/-- Claim C6, witness: a seed at 14:30:00 UTC (52 200 000 ms) with interval
count 7; the computed rollover is exactly 9 h 30 m later at the next
midnight. -/
theorem c6_witness :
    ∃ pol, timedNew 0 7 "MIDNIGHT" "UTC" 3 52200000 0 = some pol
      ∧ pol.rollover_at = 52200000 + 34200000
      ∧ localSod (if ("UTC" : String) = "U" ∨ ("UTC" : String) = "UTC" then 0 else 0)
          pol.rollover_at = 0
      ∧ (∀ j q, timedNew 0 j "MIDNIGHT" "UTC" 3 52200000 0 = some q →
          q.rollover_at = pol.rollover_at) := by
  have hp : timedNew 0 7 "MIDNIGHT" "UTC" 3 52200000 0
      = some ⟨86400000, 86400000, "%Y%m%d", 3, 0, true, true⟩ := by decide
  obtain ⟨h1, h2, h3, h4, h5⟩ := c6_theorem 0 7 3 52200000 0 "UTC" _ hp (by decide) (by decide)
  exact ⟨_, hp, h1, h3, h5⟩

/-! ### Sorting and pruning lemmas for the timed policy -/

theorem charListLe_total : ∀ a b, charListLe a b = true ∨ charListLe b a = true := by
  intro a
  induction a with
  | nil => intro b; left; rfl
  | cons x xs ih =>
    intro b
    cases b with
    | nil => right; rfl
    | cons y ys =>
      simp only [charListLe]
      by_cases h1 : x.toNat < y.toNat
      · left; rw [if_pos h1]
      · by_cases h2 : y.toNat < x.toNat
        · right; rw [if_pos h2]
        · rw [if_neg h1, if_neg h2, if_neg h2, if_neg h1]
          exact ih ys

theorem charListLe_trans : ∀ a b c, charListLe a b = true → charListLe b c = true →
    charListLe a c = true := by
  intro a
  induction a with
  | nil => intro b c _ _; rfl
  | cons x xs ih =>
    intro b c hab hbc
    cases b with
    | nil => exact absurd hab (by simp [charListLe])
    | cons y ys =>
      cases c with
      | nil => exact absurd hbc (by simp [charListLe])
      | cons z zs =>
        simp only [charListLe] at hab hbc ⊢
        by_cases h1 : x.toNat < y.toNat
        · by_cases h2 : y.toNat < z.toNat
          · rw [if_pos (show x.toNat < z.toNat by omega)]
          · rw [if_neg h2] at hbc
            by_cases h3 : z.toNat < y.toNat
            · rw [if_pos h3] at hbc; exact absurd hbc (by simp)
            · rw [if_pos (show x.toNat < z.toNat by omega)]
        · rw [if_neg h1] at hab
          by_cases h4 : y.toNat < x.toNat
          · rw [if_pos h4] at hab; exact absurd hab (by simp)
          · rw [if_neg h4] at hab
            by_cases h2 : y.toNat < z.toNat
            · rw [if_pos (show x.toNat < z.toNat by omega)]
            · rw [if_neg h2] at hbc
              by_cases h3 : z.toNat < y.toNat
              · rw [if_pos h3] at hbc; exact absurd hbc (by simp)
              · rw [if_neg h3] at hbc
                rw [if_neg (show ¬ x.toNat < z.toNat by omega),
                  if_neg (show ¬ z.toNat < x.toNat by omega)]
                exact ih ys zs hab hbc

theorem strLe_total (a b : String) : strLe a b = true ∨ strLe b a = true :=
  charListLe_total a.data b.data

theorem strLe_trans {a b c : String} (h1 : strLe a b = true) (h2 : strLe b c = true) :
    strLe a c = true :=
  charListLe_trans a.data b.data c.data h1 h2

theorem insertSorted_perm (a : String) : ∀ l, (insertSorted a l).Perm (a :: l) := by
  intro l
  induction l with
  | nil => exact List.Perm.refl _
  | cons b rest ih =>
    unfold insertSorted
    by_cases h : strLe a b = true
    · rw [if_pos h]
    · rw [if_neg h]
      exact (List.Perm.cons b ih).trans (List.Perm.swap a b rest)

theorem sortStr_perm : ∀ l, (sortStr l).Perm l := by
  intro l
  induction l with
  | nil => exact List.Perm.refl _
  | cons a rest ih =>
    unfold sortStr
    exact (insertSorted_perm a (sortStr rest)).trans (List.Perm.cons a ih)

theorem insertSorted_pairwise (a : String) :
    ∀ l, l.Pairwise (fun x y => strLe x y = true) →
      (insertSorted a l).Pairwise (fun x y => strLe x y = true) := by
  intro l
  induction l with
  | nil => intro _; simp [insertSorted]
  | cons b rest ih =>
    intro hp
    rw [List.pairwise_cons] at hp
    obtain ⟨hb, hrest⟩ := hp
    unfold insertSorted
    by_cases h : strLe a b = true
    · rw [if_pos h]
      refine List.Pairwise.cons ?_ (List.pairwise_cons.mpr ⟨hb, hrest⟩)
      intro y hy
      rcases List.mem_cons.mp hy with rfl | hy'
      · exact h
      · exact strLe_trans h (hb y hy')
    · rw [if_neg h]
      have hba : strLe b a = true := (strLe_total a b).resolve_left h
      refine List.Pairwise.cons ?_ (ih hrest)
      intro y hy
      rcases List.mem_cons.mp ((insertSorted_perm a rest).mem_iff.mp hy) with rfl | hy'
      · exact hba
      · exact hb y hy'

theorem sortStr_pairwise : ∀ l, (sortStr l).Pairwise (fun x y => strLe x y = true) := by
  intro l
  induction l with
  | nil => simp [sortStr]
  | cons a rest ih => exact insertSorted_pairwise a (sortStr rest) ih

theorem strContains_iff (l : List String) (x : String) : l.contains x = true ↔ x ∈ l := by
  simp [List.contains, List.elem_iff]

theorem fsGet_filter_doomed (fs : FS) (doomed : List String) (x : String) :
    fsGet (fs.filter (fun e => !(doomed.contains e.1))) x
      = if doomed.contains x = true then none else fsGet fs x := by
  induction fs with
  | nil => simp [fsGet]
  | cons e rest ih =>
    obtain ⟨a, f⟩ := e
    rw [List.filter_cons]
    by_cases hda : doomed.contains a = true
    · rw [if_neg (by rw [show doomed.contains (a, f).1 = true from hda]; simp)]
      by_cases hxa : x = a
      · subst hxa
        rw [ih, if_pos hda, if_pos hda]
      · rw [ih]
        by_cases hdx : doomed.contains x = true
        · rw [if_pos hdx, if_pos hdx]
        · rw [if_neg hdx, if_neg hdx]
          simp [fsGet, hxa]
    · have hda' : doomed.contains a = false := by simpa using hda
      rw [if_pos (by rw [show doomed.contains (a, f).1 = false from hda']; rfl)]
      by_cases hxa : x = a
      · subst hxa
        rw [if_neg hda]
        simp [fsGet]
      · rw [show fsGet ((a, f) :: List.filter (fun e => !(doomed.contains e.1)) rest) x
            = fsGet (List.filter (fun e => !(doomed.contains e.1)) rest) x from by
          simp [fsGet, hxa]]
        rw [ih]
        by_cases hdx : doomed.contains x = true
        · rw [if_pos hdx, if_pos hdx]
        · rw [if_neg hdx, if_neg hdx]
          simp [fsGet, hxa]

theorem mem_keys_of_fsGet {fs : FS} {x : String} (h : fsGet fs x ≠ none) :
    x ∈ fs.map Prod.fst := by
  induction fs with
  | nil => exact absurd rfl h
  | cons e rest ih =>
    obtain ⟨a, f⟩ := e
    by_cases hxa : x = a
    · subst hxa; exact List.mem_cons_self _ _
    · refine List.mem_cons_of_mem _ (ih ?_)
      simpa [fsGet, hxa] using h

/-! ### Claim C7 -/

/-- Claim C7 (confirmed).  `remove_old_backup` lists every file matching the
glob `p.*` (names extending `p ++ "."`), sorts them, and when the count
exceeds `maxBackupCount = m` deletes exactly the excess lexicographically
smallest: afterwards the `m` largest matches survive unchanged (each deleted
name compares `≤` every survivor), non-matching files are untouched, and any
surviving match is one of the `m` largest. -/
theorem c7_theorem (fs : FS) (p : String) (m : Nat) (ms sorted : List String)
    (hms : ms = (fs.map Prod.fst).filter (fun s => globMatch (p ++ ".").data s.data))
    (hsorted : sorted = sortStr ms)
    (hnd : (fs.map Prod.fst).Nodup)
    (hlen : m < sorted.length) :
    (sorted.drop (sorted.length - m)).length = m
    ∧ (∀ x ∈ sorted.take (sorted.length - m), fsGet (removeOldBackup fs p m) x = none)
    ∧ (∀ x ∈ sorted.drop (sorted.length - m),
        fsGet (removeOldBackup fs p m) x = fsGet fs x)
    ∧ (∀ x ∈ sorted.take (sorted.length - m), ∀ y ∈ sorted.drop (sorted.length - m),
        strLe x y = true)
    ∧ (∀ x, globMatch (p ++ ".").data x.data = false →
        fsGet (removeOldBackup fs p m) x = fsGet fs x)
    ∧ (∀ x, globMatch (p ++ ".").data x.data = true →
        fsGet (removeOldBackup fs p m) x ≠ none →
        x ∈ sorted.drop (sorted.length - m)) := by
  subst hms hsorted
  set ms := (fs.map Prod.fst).filter (fun s => globMatch (p ++ ".").data s.data) with hms
  set sorted := sortStr ms with hsorted
  set doomed := sorted.take (sorted.length - m) with hdoomed
  have hrw : removeOldBackup fs p m = fs.filter (fun e => !(doomed.contains e.1)) := by
    unfold removeOldBackup
    simp only []
    rw [← hms, ← hsorted, ← hdoomed, if_pos hlen]
  have hnodup_ms : ms.Nodup := List.Nodup.filter _ hnd
  have hnodup_sorted : sorted.Nodup := (sortStr_perm ms).nodup_iff.mpr hnodup_ms
  have hpair := sortStr_pairwise ms
  have hsplit : doomed ++ sorted.drop (sorted.length - m) = sorted :=
    List.take_append_drop _ sorted
  have hdisj : doomed.Disjoint (sorted.drop (sorted.length - m)) :=
    List.disjoint_of_nodup_append (by rw [hsplit]; exact hnodup_sorted)
  refine ⟨?_, ?_, ?_, ?_, ?_, ?_⟩
  · rw [List.length_drop]
    omega
  · intro x hx
    rw [hrw, fsGet_filter_doomed, if_pos ((strContains_iff _ _).mpr hx)]
  · intro x hx
    have hnx : x ∉ doomed := fun hc => hdisj hc hx
    rw [hrw, fsGet_filter_doomed,
      if_neg (fun hc => hnx ((strContains_iff _ _).mp hc))]
  · intro x hx y hy
    have hpair' : (doomed ++ sorted.drop (sorted.length - m)).Pairwise
        (fun a b => strLe a b = true) := by rw [hsplit]; rw [← hsorted] at hpair; exact hpair
    exact (List.pairwise_append.mp hpair').2.2 x hx y hy
  · intro x hxm
    have hnx : x ∉ doomed := by
      intro hc
      have hxs : x ∈ sorted := List.mem_of_mem_take hc
      have hxms : x ∈ ms := (sortStr_perm ms).mem_iff.mp hxs
      rw [hms] at hxms
      have := (List.mem_filter.mp hxms).2
      rw [hxm] at this
      exact absurd this (by simp)
    rw [hrw, fsGet_filter_doomed,
      if_neg (fun hc => hnx ((strContains_iff _ _).mp hc))]
  · intro x hxm hne
    have hnx : x ∉ doomed := by
      intro hc
      rw [hrw, fsGet_filter_doomed, if_pos ((strContains_iff _ _).mpr hc)] at hne
      exact hne rfl
    have hget : fsGet fs x ≠ none := by
      rw [hrw, fsGet_filter_doomed,
        if_neg (fun hc => hnx ((strContains_iff _ _).mp hc))] at hne
      exact hne
    have hxkeys : x ∈ fs.map Prod.fst := mem_keys_of_fsGet hget
    have hxms : x ∈ ms := by
      rw [hms]
      exact List.mem_filter.mpr ⟨hxkeys, by rw [hxm]⟩
    have hxs : x ∈ sorted := (sortStr_perm ms).mem_iff.mpr hxms
    rw [← hsplit] at hxs
    rcases List.mem_append.mp hxs with h | h
    · exact absurd h hnx
    · exact h

/-- Claim C7, witness: five timestamp-suffixed backups with
`maxBackupCount = 3` — the two smallest are deleted, the three largest and
the live file survive. -/
theorem c7_witness :
    fsGet (removeOldBackup
        [("app.log", [0]), ("app.log.20250101", [1]), ("app.log.20250102", [2]),
         ("app.log.20250103", [3]), ("app.log.20250104", [4]), ("app.log.20250105", [5])]
        "app.log" 3) "app.log.20250101" = none
    ∧ fsGet (removeOldBackup
        [("app.log", [0]), ("app.log.20250101", [1]), ("app.log.20250102", [2]),
         ("app.log.20250103", [3]), ("app.log.20250104", [4]), ("app.log.20250105", [5])]
        "app.log" 3) "app.log.20250103"
      = fsGet
        [("app.log", [0]), ("app.log.20250101", [1]), ("app.log.20250102", [2]),
         ("app.log.20250103", [3]), ("app.log.20250104", [4]), ("app.log.20250105", [5])]
        "app.log.20250103"
    ∧ fsGet (removeOldBackup
        [("app.log", [0]), ("app.log.20250101", [1]), ("app.log.20250102", [2]),
         ("app.log.20250103", [3]), ("app.log.20250104", [4]), ("app.log.20250105", [5])]
        "app.log" 3) "app.log"
      = fsGet
        [("app.log", [0]), ("app.log.20250101", [1]), ("app.log.20250102", [2]),
         ("app.log.20250103", [3]), ("app.log.20250104", [4]), ("app.log.20250105", [5])]
        "app.log"
    ∧ (([ "app.log.20250101", "app.log.20250102", "app.log.20250103",
          "app.log.20250104", "app.log.20250105" ] : List String).drop 2).length = 3 := by
  obtain ⟨h1, h2, h3, h4, h5, h6⟩ := c7_theorem
    [("app.log", [0]), ("app.log.20250101", [1]), ("app.log.20250102", [2]),
     ("app.log.20250103", [3]), ("app.log.20250104", [4]), ("app.log.20250105", [5])]
    "app.log" 3
    ["app.log.20250101", "app.log.20250102", "app.log.20250103",
     "app.log.20250104", "app.log.20250105"]
    ["app.log.20250101", "app.log.20250102", "app.log.20250103",
     "app.log.20250104", "app.log.20250105"]
    (by decide) (by decide) (by decide) (by decide)
  exact ⟨h2 "app.log.20250101" (by decide), h3 "app.log.20250103" (by decide),
    h5 "app.log" (by decide), h1⟩
